import Mathlib

/-!
Shallow embedding of the `wordfreq` repository: the MPI program
`src/wordfreq_mpi.c` and the OpenMP program `src/unnamed/part_000`.

Modelling conventions:
* C machine integers are modelled by `Nat` (with explicit `% 2 ^ 32` where
  unsigned overflow matters, namely the FNV-1a hash) and by `Int` where a C
  `int` can be negative (`atoi` results, the `top_n` argument).
* A C string / byte buffer is a `List Nat` of byte values `0..255`.
* Both C hash maps chain entries inside `HASH_TABLE_SIZE` buckets, where the
  bucket of a word is `hash` of its case-folded bytes; a newly created node is
  pushed at the front of its chain.  Case-folded-equal words always land in the
  same bucket (`hash_congr_fold` below), and so do byte-equal words; hence a
  linear scan of one bucket finds a matching node exactly when a scan of the
  whole table in front-first chain order does, and it finds the same node.  The
  map is therefore embedded as the flat front-first list of all its entries
  (`HMap.entries`) together with the `items` counter; bucket iteration order
  (used by `serialize_hashmap`, `merge_hashmaps` and `print_results`) is
  embedded as this flat list order.  All claims settled against this embedding
  are about the (word, count) contents, the per-word counts, or order
  properties that are invariant under the comparator, never about the raw
  enumeration order of the C buckets.
* File-system effects are embedded by `FileRes`: a file is either readable
  with some content, fails to open (`fopen` returning NULL), or hits a read
  error mid-stream after delivering a prefix of its bytes.
-/

namespace Wordfreq

/-- MAX_WORD_LEN, 100 in both C files. -/
def MAX_WORD_LEN : Nat := 100

/-- HASH_TABLE_SIZE, 16384 in both C files. -/
def HASH_TABLE_SIZE : Nat := 16384

/-- C `tolower` on a byte value (ASCII range, as both programs assume). -/
def ctolower (c : Nat) : Nat := if 65 ≤ c ∧ c ≤ 90 then c + 32 else c

/-- Case folding of a word: `tolower` applied to every byte.  Both programs
compare and hash words through this folding (`strncasecmp`, `tolower` in
`hash`). -/
def fold (w : List Nat) : List Nat := w.map ctolower

/-- FNV-1a hash over the case-folded bytes, reduced modulo the table size:
`hash` at `wordfreq_mpi.c:41-48` and `part_000:43-50` (32-bit unsigned
arithmetic, hence the `% 2 ^ 32`). -/
def hash (w : List Nat) : Nat :=
  (w.foldl (fun h c => ((h ^^^ ctolower c) * 16777619) % 2 ^ 32) 2166136261) % HASH_TABLE_SIZE

/-- One chained word node: the stored spelling and its occurrence count
(`WordNode` in both C files; the `next` pointer and the cached `hash` field of
the OpenMP variant are represented by the list structure). -/
structure Entry where
  word : List Nat
  count : Nat
deriving DecidableEq, Repr

/-- A frequency table: flat front-first list of all chained entries plus the
`items` counter (`HashMap` in both C files; see the module comment for why the
bucket array is embedded as one flat list). -/
structure HMap where
  entries : List Entry
  items : Nat
deriving DecidableEq, Repr

/-- A freshly created map: `create_hashmap` (all buckets NULL, `items = 0`). -/
def HMap.empty : HMap := ⟨[], 0⟩

/-- Scan of a chain for the first entry whose case-folded word equals the
case-folded probe, bumping its count by one: the `while` loop of `insert_word`
(`wordfreq_mpi.c:78-84`, `part_000:56-62`).  `strncasecmp(node->word, word,
MAX_WORD_LEN)` returns 0 exactly when the two case-folded C strings are equal,
because every stored word is at most `MAX_WORD_LEN - 1` bytes long, so the
comparison always reaches a terminator before the length bound. -/
def bumpCase : List Entry → List Nat → Option (List Entry)
  | [], _ => none
  | e :: es, w =>
    if fold e.word = fold w then some ({ e with count := e.count + 1 } :: es)
    else (bumpCase es w).map (e :: ·)

/-- The `insert_word` operation (`wordfreq_mpi.c:74-94`, `part_000:52-76`): if
a chained entry case-fold-matches, bump its count; otherwise push a fresh node
with count 1 in front of the chain and bump `items`.  The MPI variant stores
`strncpy(node->word, word, MAX_WORD_LEN - 1)`, i.e. the first 99 bytes; the
OpenMP variant stores `strdup(word)`, which agrees with the 99-byte form on
every word that either program feeds it (tokens are capped at 99 bytes). -/
def insert_word (m : HMap) (w : List Nat) : HMap :=
  match bumpCase m.entries w with
  | some es => { entries := es, items := m.items }
  | none =>
      { entries := ⟨w.take (MAX_WORD_LEN - 1), 1⟩ :: m.entries, items := m.items + 1 }

/-- Repeated insertion of the same word (`for (j = 0; j < node->count; j++)
insert_word(dest, node->word)` in the MPI merge, and the re-insertion loop of
`deserialize_hashmap`). -/
def insertN (m : HMap) (w : List Nat) : Nat → HMap
  | 0 => m
  | k + 1 => insertN (insert_word m w) w k

/-- Insertion of a list of words in order, starting from a given table. -/
def insertList (m : HMap) (ws : List (List Nat)) : HMap := ws.foldl insert_word m

/-- The MPI merge (`merge_hashmaps`, `wordfreq_mpi.c:160-171`): every source
entry is re-inserted into the destination `count` times via `insert_word`. -/
def merge_hashmaps (dest src : HMap) : HMap :=
  src.entries.foldl (fun d e => insertN d e.word e.count) dest

/-- Scan of a chain for the first entry whose stored bytes are `strcmp`-equal
to the probe entry's word, adding the probe's count to it: the inner loop of
the OpenMP `merge_hashmaps` (`part_000:87-93`).  Note the comparison is exact
bytes (`strcmp`), not case-folded. -/
def bumpExact : List Entry → Entry → Option (List Entry)
  | [], _ => none
  | e :: es, s =>
    if e.word = s.word then some ({ e with count := e.count + s.count } :: es)
    else (bumpExact es s).map (e :: ·)

/-- One step of the OpenMP merge for one source entry (`part_000:83-106`): on
an exact-byte match add the counts, otherwise push a fresh node carrying the
source's spelling and count and bump `items`. -/
def mergeStepOmp (d : HMap) (s : Entry) : HMap :=
  match bumpExact d.entries s with
  | some es => { entries := es, items := d.items }
  | none => { entries := ⟨s.word, s.count⟩ :: d.entries, items := d.items + 1 }

/-- The OpenMP merge (`merge_hashmaps`, `part_000:78-111`; renamed here to
avoid the clash between the two C translation units). -/
def merge_hashmaps_omp (dest src : HMap) : HMap := src.entries.foldl mergeStepOmp dest

/-- The `is_delimiter` test plus the hard-wired newline / carriage-return
cases of both tokenizer loops (`wordfreq_mpi.c:96-102,129`,
`part_000:127-134,149`). -/
def is_delimiter (delims : List Nat) (c : Nat) : Bool :=
  delims.contains c || c == 10 || c == 13

/-- Tokenizer loop of `process_file` / `process_file_sync`
(`wordfreq_mpi.c:125-144`, `part_000:148-163`): bytes are accumulated into the
`word` buffer while they are not delimiters, the buffer is capped at
`MAX_WORD_LEN - 1 = 99` bytes (`word_len < MAX_WORD_LEN - 1`), and a non-empty
buffer is flushed at each delimiter and at end of stream.  The accumulator is
kept reversed. -/
def tokAux (delims : List Nat) : List Nat → List Nat → List (List Nat)
  | [], acc => if acc.isEmpty then [] else [acc.reverse]
  | c :: cs, acc =>
    if is_delimiter delims c then
      if acc.isEmpty then tokAux delims cs []
      else acc.reverse :: tokAux delims cs []
    else if acc.length < MAX_WORD_LEN - 1 then tokAux delims cs (c :: acc)
    else tokAux delims cs acc

/-- The buffered runs flushed by the tokenizer loop, in stream order. -/
def tokenize (delims stream : List Nat) : List (List Nat) := tokAux delims stream []

/-- The words actually handed to `insert_word`: the flushed buffer is read as
a C string (`word[word_len] = 0` followed by `insert_word(map, word)`), so a
flushed run is cut at its first NUL byte.  On NUL-free streams this is exactly
`tokenize`. -/
def ctokens (delims stream : List Nat) : List (List Nat) :=
  (tokenize delims stream).map (List.takeWhile (fun c => !(c == 0)))

/-- Decimal digit rendering, fuel-bounded so that it reduces inside the
kernel; the fuel strictly dominates the value, so it never runs out (see
`decDigits_eq`). -/
def decDigitsAux : Nat → Nat → List Nat
  | 0, _ => []
  | fuel + 1, n => if n < 10 then [48 + n] else decDigitsAux fuel (n / 10) ++ [48 + n % 10]

/-- Decimal digits of a natural number, most significant first: the `%d`
rendering done by `snprintf(ptr, _, "%s:%d\n", node->word, node->count)`. -/
def decDigits (n : Nat) : List Nat := decDigitsAux (n + 1) n

/-- The wire record of one entry: `word`, `':'`, decimal count, `'\n'`. -/
def record (e : Entry) : List Nat := e.word ++ 58 :: (decDigits e.count ++ [10])

/-- The body of a wire record, without its terminating newline: the `strtok`
line the consumer gets back. -/
def recBody (e : Entry) : List Nat := e.word ++ 58 :: decDigits e.count

/-- The serializer (`serialize_hashmap`, `wordfreq_mpi.c:173-213`): one
`word:count\n` record per entry in table iteration order; an empty table is
encoded as the single NUL byte (`written == 0` branch).  The fatal
MAX_BUFFER_SIZE / allocation aborts are not modelled (they stop the whole
program and produce no buffer). -/
def serialize_hashmap (m : HMap) : List Nat :=
  if m.entries.isEmpty then [0] else m.entries.flatMap record

/-- C `isspace` for the bytes `atoi` skips. -/
def isSpaceB (c : Nat) : Bool := c == 32 || (9 ≤ c && c ≤ 13)

/-- Digit-accumulating loop of `atoi`: consume leading decimal digits,
stopping at the first non-digit. -/
def atoiDigits : List Nat → Nat → Nat
  | [], acc => acc
  | c :: cs, acc => if 48 ≤ c ∧ c ≤ 57 then atoiDigits cs (acc * 10 + (c - 48)) else acc

/-- C `atoi`: skip whitespace, optional sign, then decimal digits; no digits
parse as 0 (overflow is not modelled, the result is an unbounded `Int`). -/
def atoiM (s : List Nat) : Int :=
  let t := s.dropWhile isSpaceB
  if t.headD 0 = 43 then (atoiDigits t.tail 0 : Int)
  else if t.headD 0 = 45 then -(atoiDigits t.tail 0 : Int)
  else (atoiDigits t 0 : Int)

/-- Splitting a buffer into `strtok(_, "\n")` lines: maximal non-`'\n'` runs,
with empty runs skipped (this is what `strtok` does with consecutive
delimiters).  The accumulator is kept reversed. -/
def linesAux : List Nat → List Nat → List (List Nat)
  | [], acc => if acc.isEmpty then [] else [acc.reverse]
  | c :: cs, acc =>
    if c == 10 then
      if acc.isEmpty then linesAux cs []
      else acc.reverse :: linesAux cs []
    else linesAux cs (c :: acc)

/-- All `strtok` lines of a buffer. -/
def splitLines (b : List Nat) : List (List Nat) := linesAux b []

/-- Parsing of one `word:count` line (`deserialize_hashmap` body,
`wordfreq_mpi.c:230-237`): `strchr(line, ':')` finds the first colon, the
bytes before it are the word, `atoi` of the bytes after it is the count; a
line with no colon yields nothing. -/
def parseRec (line : List Nat) : Option (List Nat × Int) :=
  if line.contains 58 then
    some (line.takeWhile (fun c => !(c == 58)),
          atoiM ((line.dropWhile (fun c => !(c == 58))).tail))
  else none

/-- The well-formed records a received buffer contributes: the buffer is cut
at its first NUL (`strndup` + C-string reading), split into lines, and a line
survives exactly when it has a colon and its parsed count is positive. -/
def parsedRecs (buf : List Nat) : List (List Nat × Nat) :=
  (splitLines (buf.takeWhile (fun c => !(c == 0)))).filterMap fun line =>
    match parseRec line with
    | some (w, c) => if 0 < c then some (w, c.toNat) else none
    | none => none

/-- The deserializer (`deserialize_hashmap`, `wordfreq_mpi.c:215-242`): the
single-NUL sentinel leaves the table untouched; otherwise each line with a
colon and a positive `atoi` count re-inserts its word that many times, and
every other line is skipped. -/
def deserialize_hashmap (m : HMap) (buf : List Nat) : HMap :=
  if buf.length ≤ 1 ∧ buf.headD 1 = 0 then m
  else
    (splitLines (buf.takeWhile (fun c => !(c == 0)))).foldl
      (fun d line =>
        match parseRec line with
        | some (w, c) => if 0 < c then insertN d w c.toNat else d
        | none => d) m

/-- Lexicographic byte order with the C-string convention that a proper
prefix sorts first: the order computed by `strcmp` / `strncasecmp` on the raw
byte lists handed to them. -/
def lexLEb : List Nat → List Nat → Bool
  | [], _ => true
  | _ :: _, [] => false
  | a :: as, b :: bs => if a < b then true else if b < a then false else lexLEb as bs

/-- Sort key of an entry under the MPI comparator: count and case-folded
spelling. -/
def key (e : Entry) : Nat × List Nat := (e.count, fold e.word)

/-- Order on sort keys: larger count first, ties by ascending case-folded
byte order. -/
def keyLE (x y : Nat × List Nat) : Prop :=
  y.1 < x.1 ∨ (x.1 = y.1 ∧ lexLEb x.2 y.2 = true)

/-- The MPI comparator `compare_words` (`wordfreq_mpi.c:244-252`) as a
non-strict order: count descending, ties by `strncasecmp`, i.e. ascending
case-folded byte order. -/
def compare_words (a b : Entry) : Prop := keyLE (key a) (key b)

/-- The OpenMP comparator `compare_words` (`part_000:221-229`) as a
non-strict order: count descending, ties by `strcmp`, i.e. ascending RAW byte
order (not case-folded). -/
def compare_words_omp (a b : Entry) : Prop :=
  b.count < a.count ∨ (a.count = b.count ∧ lexLEb a.word b.word = true)

instance : DecidableRel keyLE := fun x y => by unfold keyLE; infer_instance

instance : DecidableRel compare_words := fun a b => by
  unfold compare_words; infer_instance

instance : DecidableRel compare_words_omp := fun a b => by
  unfold compare_words_omp; infer_instance

/-- The entry list materialized and sorted by `print_results` + `qsort` with
the MPI `compare_words` (`wordfreq_mpi.c:254-269`).  The comparator never
ties on distinct elements of a table satisfying the distinct-case-folded-word
invariant, so every correct sort produces this same list. -/
def sorted_entries (m : HMap) : List Entry := List.insertionSort compare_words m.entries

/-- Same for the OpenMP `print_results` + `qsort` (`part_000:231-245`). -/
def sorted_entries_omp (m : HMap) : List Entry :=
  List.insertionSort compare_words_omp m.entries

/-- The ranked list exposed by the MPI `print_results(map, top_n)` print loop
(`for (i = 0; i < map->items && i < top_n; i++)`), modelled on a table whose
`items` equals its number of entries: the first `n` sorted entries, empty
whenever `n ≤ 0`. -/
def topN (m : HMap) (n : Int) : List Entry := (sorted_entries m).take n.toNat

/-- Same for the OpenMP `print_results`. -/
def topN_omp (m : HMap) (n : Int) : List Entry := (sorted_entries_omp m).take n.toNat

/-- Ranked output with the spelling taken up to case folding: positions keep
the count and the case-folded word. -/
def rankedKeys (m : HMap) : List (Nat × List Nat) := (sorted_entries m).map key

/-- Total count a table assigns to a case-folded key: the sum of the counts
of all entries whose case-folded word is the key (one entry when the table
satisfies its invariant). -/
def gcount (m : HMap) (k : List Nat) : Nat :=
  (m.entries.map fun e => if fold e.word = k then e.count else 0).sum

/-- Total count a table assigns to an exact spelling. -/
def ecount (m : HMap) (w : List Nat) : Nat :=
  (m.entries.map fun e => if e.word = w then e.count else 0).sum

/-- Two tables with identical (word, count) contents: the same set of
(spelling, count) entries is reachable in both. -/
def sameContents (a b : HMap) : Prop := ∀ e : Entry, e ∈ a.entries ↔ e ∈ b.entries

/-- Table invariant stated by the specification: the case-folded words of the
entries are pairwise distinct and `items` counts the reachable entries. -/
def Inv (m : HMap) : Prop :=
  m.entries.Pairwise (fun a b => fold a.word ≠ fold b.word) ∧ m.items = m.entries.length

/-- Every stored word fits the `MAX_WORD_LEN - 1` byte bound (true of every
table either program builds, since `insert_word` truncates at storage). -/
def WF (m : HMap) : Prop := ∀ e ∈ m.entries, e.word.length ≤ MAX_WORD_LEN - 1

/-- Every stored count is at least one. -/
def PosCounts (m : HMap) : Prop := ∀ e ∈ m.entries, 1 ≤ e.count

/-- Stored words that survive the text wire encoding: no NUL, no newline, no
colon. -/
def wireEntries (m : HMap) : Prop :=
  ∀ e ∈ m.entries, 0 ∉ e.word ∧ 10 ∉ e.word ∧ 58 ∉ e.word

/-- The stored spellings of a table are pairwise distinct as raw bytes (the
exact-match analogue of the invariant; the OpenMP merge maintains only
this). -/
def NodupWords (m : HMap) : Prop := m.entries.Pairwise fun a b => a.word ≠ b.word

instance (m : HMap) : Decidable (Inv m) := by unfold Inv; infer_instance

instance (m : HMap) : Decidable (WF m) := by unfold WF; infer_instance

instance (m : HMap) : Decidable (PosCounts m) := by unfold PosCounts; infer_instance

instance (m : HMap) : Decidable (wireEntries m) := by unfold wireEntries; infer_instance

instance (m : HMap) : Decidable (NodupWords m) := by unfold NodupWords; infer_instance

/-- Per-file aggregation on a successfully read content: the tokenizer
feeding `insert_word` on a fresh table (`process_file` body). -/
def fileTable (delims content : List Nat) : HMap :=
  insertList HMap.empty (ctokens delims content)

/-- Outcome of opening and reading one file: readable content, `fopen`
failure, or a mid-stream read error after a prefix of the bytes. -/
inductive FileRes where
  | ok (content : List Nat)
  | openFail
  | readFail (got : List Nat)
deriving DecidableEq, Repr

/-- The MPI `process_file` (`wordfreq_mpi.c:104-158`): NULL on `fopen`
failure; on a read error the `ferror` check at line 146 frees the partially
built table and returns NULL; otherwise the table of the file's tokens. -/
def process_file (delims : List Nat) : FileRes → Option HMap
  | FileRes.ok content => some (fileTable delims content)
  | FileRes.openFail => none
  | FileRes.readFail _ => none

/-- The OpenMP `process_file_sync` (`part_000:136-168`): NULL on `fopen`
failure, but there is no `ferror` check — `fgetc` returns EOF both at end of
file and on a read error, so a mid-stream error silently yields the table of
the prefix that was read. -/
def process_file_sync (delims : List Nat) : FileRes → Option HMap
  | FileRes.ok content => some (fileTable delims content)
  | FileRes.openFail => none
  | FileRes.readFail got => some (fileTable delims got)

/-- The MPI per-rank file loop (`wordfreq_mpi.c:303-312`): each produced
table is merged into the running local table and a NULL result is skipped. -/
def aggregateMpi (delims : List Nat) (fs : List FileRes) : HMap :=
  fs.foldl
    (fun g f =>
      match process_file delims f with
      | some t => merge_hashmaps g t
      | none => g) HMap.empty

/-- Local table of a list of readable file contents, as built by the MPI
per-rank loop. -/
def localTable (delims : List Nat) (fs : List (List Nat)) : HMap :=
  fs.foldl (fun m f => merge_hashmaps m (fileTable delims f)) HMap.empty

/-- Round-robin file assignment of `for (i = rank; i < argc - 1; i += size)`:
the files whose index is `r` modulo `P`, in order. -/
def assigned (files : List (List Nat)) (P r : Nat) : List (List Nat) :=
  (files.enum.filter fun p => p.1 % P = r).map Prod.snd

/-- The distributed pipeline of the MPI `main` (`wordfreq_mpi.c:302-377`) on
`P` ranks over readable files: each rank builds its local table from its
round-robin share; rank 0 merges its own local table into a fresh global
table directly and reconstructs every other rank's table from its serialized
buffer delivered by the gather. -/
def mpiRun (delims : List Nat) (files : List (List Nat)) (P : Nat) : HMap :=
  (List.range (P - 1)).foldl
    (fun g r =>
      deserialize_hashmap g (serialize_hashmap (localTable delims (assigned files P (r + 1)))))
    (merge_hashmaps HMap.empty (localTable delims (assigned files P 0)))

/-- The OpenMP sequential driver `process_files_sync` (`part_000:208-219`):
per-file tables merged left to right into one global table with the OpenMP
merge. -/
def process_files_sync (delims : List Nat) (files : List (List Nat)) : HMap :=
  files.foldl (fun g f => merge_hashmaps_omp g (fileTable delims f)) HMap.empty

/-- The OpenMP parallel driver `process_files_parallel` (`part_000:170-206`)
on one schedule: `parts` lists, per thread and in that thread's processing
order, the contents of the files the dynamic `omp for` handed it; each thread
folds its files into a thread-local table and the threads then merge their
locals into the shared global table one at a time (`omp critical`), in some
completion order.  Quantifying over every `parts` whose concatenation is a
permutation of the file list covers every dynamic schedule and every merge
order. -/
def process_files_parallel (delims : List Nat) (parts : List (List (List Nat))) : HMap :=
  parts.foldl
    (fun g part =>
      merge_hashmaps_omp g
        (part.foldl (fun l f => merge_hashmaps_omp l (fileTable delims f)) HMap.empty))
    HMap.empty

/-- Merge trees: an arbitrary partition of a word multiset into groups
(leaves) and an arbitrary pairwise merge order (inner nodes). -/
inductive MTree where
  | leaf : List (List Nat) → MTree
  | node : MTree → MTree → MTree

/-- The word multiset of a merge tree, in left-to-right order. -/
def MTree.words : MTree → List (List Nat)
  | .leaf g => g
  | .node l r => l.words ++ r.words

/-- Evaluation of a merge tree with the MPI merge: each leaf group is
aggregated into its own table, inner nodes merge with `merge_hashmaps`. -/
def MTree.evalMpi : MTree → HMap
  | .leaf g => insertList HMap.empty g
  | .node l r => merge_hashmaps l.evalMpi r.evalMpi

/-- Evaluation of a merge tree with the OpenMP merge. -/
def MTree.evalOmp : MTree → HMap
  | .leaf g => insertList HMap.empty g
  | .node l r => merge_hashmaps_omp l.evalOmp r.evalOmp

/-- Tokenizer contract as the claim states it, written from the claim's own
words: the emitted tokens are exactly the maximal runs of bytes that are
neither in the supplied delimiter set nor newline nor carriage-return, in
stream order, each truncated to the maximum stored word length, with no token
for an empty run.  `specSplit` collects the maximal non-delimiter runs
(second argument: the pending run). -/
def specSplit (delims : List Nat) : List Nat → List Nat → List (List Nat)
  | [], p => if p.isEmpty then [] else [p]
  | c :: cs, p =>
    if is_delimiter delims c then
      if p.isEmpty then specSplit delims cs []
      else p :: specSplit delims cs []
    else specSplit delims cs (p ++ [c])

/-- Token sequence promised by the tokenizer claim (see `specSplit`). -/
def specTokens (delims stream : List Nat) : List (List Nat) :=
  (specSplit delims stream []).map (List.take (MAX_WORD_LEN - 1))

/-! Basic facts about folding, hashing and the chain scans. -/

theorem fold_length (w : List Nat) : (fold w).length = w.length := by
  simp [fold]

theorem fold_take (w : List Nat) (n : Nat) : fold (w.take n) = (fold w).take n := by
  simp [fold, List.map_take]

/-- Case-folded-equal words occupy the same bucket; this is what lets the
bucket array be embedded as one flat chain. -/
theorem hash_congr_fold (a b : List Nat) (h : fold a = fold b) : hash a = hash b := by
  have : ∀ w : List Nat,
      w.foldl (fun h c => ((h ^^^ ctolower c) * 16777619) % 2 ^ 32) 2166136261
        = (fold w).foldl (fun h c => ((h ^^^ c) * 16777619) % 2 ^ 32) 2166136261 := by
    intro w
    simp [fold, List.foldl_map]
  simp only [hash, this, h]

theorem bumpCase_eq_none (es : List Entry) (w : List Nat) :
    bumpCase es w = none ↔ ∀ e ∈ es, fold e.word ≠ fold w := by
  induction es with
  | nil => simp [bumpCase]
  | cons e es ih =>
    by_cases h : fold e.word = fold w <;> simp [bumpCase, h, ih]

theorem bumpCase_isSome (es : List Entry) (w : List Nat) (e : Entry) (he : e ∈ es)
    (h : fold e.word = fold w) : ∃ es2, bumpCase es w = some es2 := by
  cases hbc : bumpCase es w with
  | some es2 => exact ⟨es2, rfl⟩
  | none => exact absurd h ((bumpCase_eq_none es w).1 hbc e he)

theorem bumpCase_words (es es2 : List Entry) (w : List Nat)
    (h : bumpCase es w = some es2) : es2.map Entry.word = es.map Entry.word := by
  induction es generalizing es2 with
  | nil => simp [bumpCase] at h
  | cons e es ih =>
    by_cases hf : fold e.word = fold w
    · simp [bumpCase, hf] at h
      simp [← h]
    · simp [bumpCase, hf] at h
      obtain ⟨es3, h3, rfl⟩ := h
      simp [ih es3 h3]

theorem bumpCase_length (es es2 : List Entry) (w : List Nat)
    (h : bumpCase es w = some es2) : es2.length = es.length := by
  have := bumpCase_words es es2 w h
  have h1 : (es2.map Entry.word).length = (es.map Entry.word).length := by rw [this]
  simpa using h1

theorem bumpCase_sum (es es2 : List Entry) (w k : List Nat)
    (h : bumpCase es w = some es2) :
    (es2.map fun e => if fold e.word = k then e.count else 0).sum
      = (es.map fun e => if fold e.word = k then e.count else 0).sum
          + (if fold w = k then 1 else 0) := by
  induction es generalizing es2 with
  | nil => simp [bumpCase] at h
  | cons e es ih =>
    by_cases hf : fold e.word = fold w
    · simp only [bumpCase, hf, if_pos, Option.some.injEq] at h
      subst h
      simp only [List.map_cons, List.sum_cons, hf]
      split_ifs <;> omega
    · simp [bumpCase, hf] at h
      obtain ⟨es3, h3, rfl⟩ := h
      simp only [List.map_cons, List.sum_cons, ih es3 h3]
      omega

theorem bumpCase_exists_match (es es2 : List Entry) (w : List Nat)
    (h : bumpCase es w = some es2) : ∃ e ∈ es, fold e.word = fold w := by
  by_contra hno
  push_neg at hno
  rw [(bumpCase_eq_none es w).2 hno] at h
  exact Option.noConfusion h

theorem bumpCase_append (l1 l2 : List Entry) (e : Entry) (w : List Nat)
    (h1 : ∀ x ∈ l1, fold x.word ≠ fold w) (he : fold e.word = fold w) :
    bumpCase (l1 ++ e :: l2) w = some (l1 ++ { e with count := e.count + 1 } :: l2) := by
  induction l1 with
  | nil => simp [bumpCase, he]
  | cons x l1 ih =>
    have hx : fold x.word ≠ fold w := h1 x (by simp)
    have ih2 := ih fun y hy => h1 y (by simp [hy])
    simp [List.cons_append, bumpCase, hx, ih2]

theorem bumpCase_counts (es es2 : List Entry) (w : List Nat)
    (h : bumpCase es w = some es2) (hpos : ∀ e ∈ es, 1 ≤ e.count) :
    ∀ e ∈ es2, 1 ≤ e.count := by
  induction es generalizing es2 with
  | nil => simp [bumpCase] at h
  | cons e es ih =>
    by_cases hf : fold e.word = fold w
    · simp only [bumpCase, hf, if_pos, Option.some.injEq] at h
      subst h
      intro x hx
      rcases List.mem_cons.1 hx with h | h
      · subst h; simp
      · exact hpos x (by simp [h])
    · simp [bumpCase, hf] at h
      obtain ⟨es3, h3, rfl⟩ := h
      intro x hx
      rcases List.mem_cons.1 hx with h | h
      · subst h; exact hpos x (by simp)
      · exact ih es3 h3 (fun y hy => hpos y (by simp [hy])) x h

/-! Preservation of the table predicates by the mutating operations. -/

theorem foldl_preserve {α : Type} (P : HMap → Prop) (f : HMap → α → HMap) (l : List α)
    (hf : ∀ d, ∀ a ∈ l, P d → P (f d a)) : ∀ d, P d → P (l.foldl f d) := by
  induction l with
  | nil => intro d h; simpa using h
  | cons a l ih =>
    intro d h
    simp only [List.foldl_cons]
    exact ih (fun d b hb => hf d b (by simp [hb])) _ (hf d a (by simp) h)

theorem insert_word_of_no_match (m : HMap) (w : List Nat)
    (h : ∀ e ∈ m.entries, fold e.word ≠ fold w) :
    insert_word m w =
      { entries := ⟨w.take (MAX_WORD_LEN - 1), 1⟩ :: m.entries, items := m.items + 1 } := by
  simp [insert_word, (bumpCase_eq_none m.entries w).2 h]

theorem WF_empty : WF HMap.empty := by intro e he; simp [HMap.empty] at he

theorem WF_insert_word (m : HMap) (w : List Nat) (h : WF m) : WF (insert_word m w) := by
  intro e he
  unfold insert_word at he
  cases hbc : bumpCase m.entries w with
  | none =>
    rw [hbc] at he
    simp at he
    rcases he with rfl | he2
    · simpa using List.length_take_le _ _
    · exact h e he2
  | some es =>
    rw [hbc] at he
    simp at he
    have hwds := bumpCase_words m.entries es w hbc
    have : e.word ∈ m.entries.map Entry.word := by
      rw [← hwds]; exact List.mem_map_of_mem _ he
    obtain ⟨e2, he2, heq⟩ := List.mem_map.1 this
    rw [← heq]
    exact h e2 he2

theorem WF_insertN (w : List Nat) : ∀ (c : Nat) (m : HMap), WF m → WF (insertN m w c) := by
  intro c
  induction c with
  | zero => intro m h; simpa [insertN]
  | succ n ih =>
    intro m h
    simp only [insertN]
    exact ih _ (WF_insert_word _ _ h)

theorem WF_insertList (ws : List (List Nat)) (m : HMap) (h : WF m) :
    WF (insertList m ws) :=
  foldl_preserve WF insert_word ws (fun d a _ => WF_insert_word d a) m h

theorem WF_merge (d s : HMap) (h : WF d) : WF (merge_hashmaps d s) :=
  foldl_preserve WF _ s.entries (fun d2 e _ => WF_insertN e.word e.count d2) d h

theorem PosCounts_empty : PosCounts HMap.empty := by intro e he; simp [HMap.empty] at he

theorem PosCounts_insert_word (m : HMap) (w : List Nat) (h : PosCounts m) :
    PosCounts (insert_word m w) := by
  intro e he
  unfold insert_word at he
  cases hbc : bumpCase m.entries w with
  | none =>
    rw [hbc] at he
    simp at he
    rcases he with rfl | he2
    · simp
    · exact h e he2
  | some es =>
    rw [hbc] at he
    simp at he
    exact bumpCase_counts m.entries es w hbc h e he

theorem PosCounts_insertN (w : List Nat) :
    ∀ (c : Nat) (m : HMap), PosCounts m → PosCounts (insertN m w c) := by
  intro c
  induction c with
  | zero => intro m h; simpa [insertN]
  | succ n ih =>
    intro m h
    simp only [insertN]
    exact ih _ (PosCounts_insert_word _ _ h)

theorem PosCounts_insertList (ws : List (List Nat)) (m : HMap) (h : PosCounts m) :
    PosCounts (insertList m ws) :=
  foldl_preserve PosCounts insert_word ws (fun d a _ => PosCounts_insert_word d a) m h

theorem PosCounts_merge (d s : HMap) (h : PosCounts d) : PosCounts (merge_hashmaps d s) :=
  foldl_preserve PosCounts _ s.entries (fun d2 e _ => PosCounts_insertN e.word e.count d2) d h

theorem Inv_empty : Inv HMap.empty := by
  constructor <;> simp [HMap.empty]

theorem Inv_insert_word (m : HMap) (w : List Nat) (hw : w.length ≤ MAX_WORD_LEN - 1)
    (h : Inv m) : Inv (insert_word m w) := by
  obtain ⟨hp, hl⟩ := h
  cases hbc : bumpCase m.entries w with
  | none =>
    have hnone := (bumpCase_eq_none m.entries w).1 hbc
    have htake : w.take (MAX_WORD_LEN - 1) = w := List.take_of_length_le hw
    constructor
    · simp only [insert_word, hbc]
      refine List.pairwise_cons.2 ⟨?_, hp⟩
      intro e he
      simp only [htake]
      exact fun hc => hnone e he hc.symm
    · simp [insert_word, hbc, hl]
  | some es =>
    constructor
    · have hwds := bumpCase_words m.entries es w hbc
      have hp2 : (m.entries.map fun e => fold e.word).Pairwise Ne :=
        (List.pairwise_map (f := fun e : Entry => fold e.word)).2 hp
      have hmapeq : (es.map fun e => fold e.word) = m.entries.map fun e => fold e.word := by
        have h1 : (es.map Entry.word).map fold = (m.entries.map Entry.word).map fold := by
          rw [hwds]
        simpa [List.map_map, Function.comp] using h1
      have hp3 : (es.map fun e => fold e.word).Pairwise Ne := by rw [hmapeq]; exact hp2
      simp only [insert_word, hbc]
      exact (List.pairwise_map (f := fun e : Entry => fold e.word)).1 hp3
    · simp [insert_word, hbc, hl, bumpCase_length m.entries es w hbc]

theorem Inv_insertN (w : List Nat) (hw : w.length ≤ MAX_WORD_LEN - 1) :
    ∀ (c : Nat) (m : HMap), Inv m → Inv (insertN m w c) := by
  intro c
  induction c with
  | zero => intro m h; simpa [insertN]
  | succ n ih =>
    intro m h
    simp only [insertN]
    exact ih _ (Inv_insert_word _ _ hw h)

theorem Inv_insertList (ws : List (List Nat)) (hws : ∀ w ∈ ws, w.length ≤ MAX_WORD_LEN - 1)
    (m : HMap) (h : Inv m) : Inv (insertList m ws) :=
  foldl_preserve Inv insert_word ws (fun d a ha => Inv_insert_word d a (hws a ha)) m h

theorem Inv_merge (d s : HMap) (hs : WF s) (h : Inv d) : Inv (merge_hashmaps d s) :=
  foldl_preserve Inv _ s.entries (fun d2 e he => Inv_insertN e.word (hs e he) e.count d2) d h

theorem wire_insert_word (m : HMap) (w : List Nat) (hw : 0 ∉ w ∧ 10 ∉ w ∧ 58 ∉ w)
    (h : wireEntries m) : wireEntries (insert_word m w) := by
  intro e he
  unfold insert_word at he
  cases hbc : bumpCase m.entries w with
  | none =>
    rw [hbc] at he
    simp at he
    rcases he with rfl | he2
    · refine ⟨?_, ?_, ?_⟩ <;>
        exact fun hc => by
          first
          | exact hw.1 (List.take_subset _ _ hc)
          | exact hw.2.1 (List.take_subset _ _ hc)
          | exact hw.2.2 (List.take_subset _ _ hc)
    · exact h e he2
  | some es =>
    rw [hbc] at he
    simp at he
    have hwds := bumpCase_words m.entries es w hbc
    have : e.word ∈ m.entries.map Entry.word := by
      rw [← hwds]; exact List.mem_map_of_mem _ he
    obtain ⟨e2, he2, heq⟩ := List.mem_map.1 this
    rw [← heq]
    exact h e2 he2

theorem wire_insertN (w : List Nat) (hw : 0 ∉ w ∧ 10 ∉ w ∧ 58 ∉ w) :
    ∀ (c : Nat) (m : HMap), wireEntries m → wireEntries (insertN m w c) := by
  intro c
  induction c with
  | zero => intro m h; simpa [insertN]
  | succ n ih =>
    intro m h
    simp only [insertN]
    exact ih _ (wire_insert_word _ _ hw h)

theorem wire_insertList (ws : List (List Nat))
    (hws : ∀ w ∈ ws, 0 ∉ w ∧ 10 ∉ w ∧ 58 ∉ w) (m : HMap) (h : wireEntries m) :
    wireEntries (insertList m ws) :=
  foldl_preserve wireEntries insert_word ws (fun d a ha => wire_insert_word d a (hws a ha)) m h

theorem wire_merge (d s : HMap) (hs : wireEntries s) (h : wireEntries d) :
    wireEntries (merge_hashmaps d s) :=
  foldl_preserve wireEntries _ s.entries
    (fun d2 e he => wire_insertN e.word (hs e he) e.count d2) d h

/-! Per-case-folded-key count homomorphism lemmas. -/

theorem gcount_empty (k : List Nat) : gcount HMap.empty k = 0 := by
  simp [gcount, HMap.empty]

theorem gcount_insert_word (m : HMap) (w k : List Nat)
    (h : WF m ∨ w.length ≤ MAX_WORD_LEN - 1) :
    gcount (insert_word m w) k
      = gcount m k + if fold (w.take (MAX_WORD_LEN - 1)) = k then 1 else 0 := by
  cases hbc : bumpCase m.entries w with
  | none =>
    simp only [insert_word, hbc, gcount, List.map_cons, List.sum_cons]
    exact Nat.add_comm _ _
  | some es =>
    obtain ⟨e, he, hef⟩ := bumpCase_exists_match m.entries es w hbc
    have hwlen : w.length ≤ MAX_WORD_LEN - 1 := by
      rcases h with hWF | hw2
      · have h1 : (fold e.word).length = (fold w).length := by rw [hef]
        rw [fold_length, fold_length] at h1
        have := hWF e he
        omega
      · exact hw2
    have htake : w.take (MAX_WORD_LEN - 1) = w := List.take_of_length_le hwlen
    rw [htake]
    simp only [insert_word, hbc, gcount]
    exact bumpCase_sum m.entries es w k hbc

theorem gcount_insertN (w k : List Nat) :
    ∀ (c : Nat) (m : HMap), WF m →
      gcount (insertN m w c) k
        = gcount m k + c * (if fold (w.take (MAX_WORD_LEN - 1)) = k then 1 else 0) := by
  intro c
  induction c with
  | zero => intro m _; simp [insertN]
  | succ n ih =>
    intro m hm
    simp only [insertN]
    rw [ih _ (WF_insert_word _ _ hm), gcount_insert_word m w k (Or.inl hm)]
    ring

theorem gcount_insertList (k : List Nat) :
    ∀ (ws : List (List Nat)) (m : HMap), WF m →
      gcount (insertList m ws) k
        = gcount m k
            + (ws.map fun w => if fold (w.take (MAX_WORD_LEN - 1)) = k then 1 else 0).sum := by
  intro ws
  induction ws with
  | nil => intro m _; simp [insertList]
  | cons w ws ih =>
    intro m hm
    simp only [insertList, List.foldl_cons, List.map_cons, List.sum_cons]
    have h2 := ih (insert_word m w) (WF_insert_word _ _ hm)
    simp only [insertList] at h2
    rw [h2, gcount_insert_word m w k (Or.inl hm)]
    omega

theorem gcount_merge (d s : HMap) (k : List Nat) (hd : WF d) :
    gcount (merge_hashmaps d s) k
      = gcount d k
          + (s.entries.map fun e =>
              if fold (e.word.take (MAX_WORD_LEN - 1)) = k then e.count else 0).sum := by
  suffices h : ∀ (es : List Entry) (d2 : HMap), WF d2 →
      gcount (es.foldl (fun d e => insertN d e.word e.count) d2) k
        = gcount d2 k
            + (es.map fun e =>
                if fold (e.word.take (MAX_WORD_LEN - 1)) = k then e.count else 0).sum by
    exact h s.entries d hd
  intro es
  induction es with
  | nil => intro d2 _; simp
  | cons e es ih =>
    intro d2 hd2
    simp only [List.foldl_cons, List.map_cons, List.sum_cons]
    rw [ih _ (WF_insertN e.word e.count d2 hd2), gcount_insertN e.word k e.count d2 hd2]
    have : e.count * (if fold (e.word.take (MAX_WORD_LEN - 1)) = k then 1 else 0)
        = if fold (e.word.take (MAX_WORD_LEN - 1)) = k then e.count else 0 := by
      split_ifs <;> simp
    omega

theorem gcount_merge_wf (d s : HMap) (k : List Nat) (hd : WF d) (hs : WF s) :
    gcount (merge_hashmaps d s) k = gcount d k + gcount s k := by
  rw [gcount_merge d s k hd]
  have : (s.entries.map fun e =>
        if fold (e.word.take (MAX_WORD_LEN - 1)) = k then e.count else 0)
      = s.entries.map fun e => if fold e.word = k then e.count else 0 := by
    refine List.map_congr_left fun e he => ?_
    rw [List.take_of_length_le (hs e he)]
  rw [this]
  rfl

/-! Facts about the OpenMP merge. -/

theorem bumpExact_eq_none (es : List Entry) (s : Entry) :
    bumpExact es s = none ↔ ∀ e ∈ es, e.word ≠ s.word := by
  induction es with
  | nil => simp [bumpExact]
  | cons e es ih =>
    by_cases h : e.word = s.word <;> simp [bumpExact, h, ih]

theorem bumpExact_words (es es2 : List Entry) (s : Entry)
    (h : bumpExact es s = some es2) : es2.map Entry.word = es.map Entry.word := by
  induction es generalizing es2 with
  | nil => simp [bumpExact] at h
  | cons e es ih =>
    by_cases hf : e.word = s.word
    · simp only [bumpExact, hf, if_pos, Option.some.injEq] at h
      subst h
      simp [hf]
    · simp [bumpExact, hf] at h
      obtain ⟨es3, h3, rfl⟩ := h
      simp [ih es3 h3]

theorem bumpExact_counts (es es2 : List Entry) (s : Entry)
    (h : bumpExact es s = some es2) (hpos : ∀ e ∈ es, 1 ≤ e.count) :
    ∀ e ∈ es2, 1 ≤ e.count := by
  induction es generalizing es2 with
  | nil => simp [bumpExact] at h
  | cons e es ih =>
    by_cases hf : e.word = s.word
    · simp only [bumpExact, hf, if_pos, Option.some.injEq] at h
      subst h
      intro x hx
      rcases List.mem_cons.1 hx with rfl | h2
      · have := hpos e (by simp)
        simp
        omega
      · exact hpos x (by simp [h2])
    · simp [bumpExact, hf] at h
      obtain ⟨es3, h3, rfl⟩ := h
      intro x hx
      rcases List.mem_cons.1 hx with rfl | h2
      · exact hpos x (by simp)
      · exact ih es3 h3 (fun y hy => hpos y (by simp [hy])) x h2

theorem bumpExact_sum_exact (es es2 : List Entry) (s : Entry) (w : List Nat)
    (h : bumpExact es s = some es2) :
    (es2.map fun e => if e.word = w then e.count else 0).sum
      = (es.map fun e => if e.word = w then e.count else 0).sum
          + (if s.word = w then s.count else 0) := by
  induction es generalizing es2 with
  | nil => simp [bumpExact] at h
  | cons e es ih =>
    by_cases hf : e.word = s.word
    · simp only [bumpExact, hf, if_pos, Option.some.injEq] at h
      subst h
      simp only [List.map_cons, List.sum_cons, hf]
      split_ifs <;> omega
    · simp [bumpExact, hf] at h
      obtain ⟨es3, h3, rfl⟩ := h
      simp only [List.map_cons, List.sum_cons, ih es3 h3]
      omega

theorem bumpExact_sum_fold (es es2 : List Entry) (s : Entry) (k : List Nat)
    (h : bumpExact es s = some es2) :
    (es2.map fun e => if fold e.word = k then e.count else 0).sum
      = (es.map fun e => if fold e.word = k then e.count else 0).sum
          + (if fold s.word = k then s.count else 0) := by
  induction es generalizing es2 with
  | nil => simp [bumpExact] at h
  | cons e es ih =>
    by_cases hf : e.word = s.word
    · simp only [bumpExact, hf, if_pos, Option.some.injEq] at h
      subst h
      simp only [List.map_cons, List.sum_cons, hf]
      split_ifs <;> omega
    · simp [bumpExact, hf] at h
      obtain ⟨es3, h3, rfl⟩ := h
      simp only [List.map_cons, List.sum_cons, ih es3 h3]
      omega

theorem ecount_mergeStepOmp (d : HMap) (s : Entry) (w : List Nat) :
    ecount (mergeStepOmp d s) w = ecount d w + if s.word = w then s.count else 0 := by
  cases hbe : bumpExact d.entries s with
  | none =>
    simp only [mergeStepOmp, hbe, ecount, List.map_cons, List.sum_cons]
    omega
  | some es =>
    simp only [mergeStepOmp, hbe, ecount]
    exact bumpExact_sum_exact d.entries es s w hbe

theorem gcount_mergeStepOmp (d : HMap) (s : Entry) (k : List Nat) :
    gcount (mergeStepOmp d s) k = gcount d k + if fold s.word = k then s.count else 0 := by
  cases hbe : bumpExact d.entries s with
  | none =>
    simp only [mergeStepOmp, hbe, gcount, List.map_cons, List.sum_cons]
    omega
  | some es =>
    simp only [mergeStepOmp, hbe, gcount]
    exact bumpExact_sum_fold d.entries es s k hbe

theorem ecount_merge_omp (d s : HMap) (w : List Nat) :
    ecount (merge_hashmaps_omp d s) w = ecount d w + ecount s w := by
  suffices h : ∀ (es : List Entry) (d2 : HMap),
      ecount (es.foldl mergeStepOmp d2) w
        = ecount d2 w + (es.map fun e => if e.word = w then e.count else 0).sum by
    rw [merge_hashmaps_omp, h s.entries d]; rfl
  intro es
  induction es with
  | nil => intro d2; simp
  | cons e es ih =>
    intro d2
    simp only [List.foldl_cons, List.map_cons, List.sum_cons, ih, ecount_mergeStepOmp]
    omega

theorem gcount_merge_omp (d s : HMap) (k : List Nat) :
    gcount (merge_hashmaps_omp d s) k = gcount d k + gcount s k := by
  suffices h : ∀ (es : List Entry) (d2 : HMap),
      gcount (es.foldl mergeStepOmp d2) k
        = gcount d2 k + (es.map fun e => if fold e.word = k then e.count else 0).sum by
    rw [merge_hashmaps_omp, h s.entries d]; rfl
  intro es
  induction es with
  | nil => intro d2; simp
  | cons e es ih =>
    intro d2
    simp only [List.foldl_cons, List.map_cons, List.sum_cons, ih, gcount_mergeStepOmp]
    omega

theorem NodupWords_mergeStepOmp (d : HMap) (s : Entry) (h : NodupWords d) :
    NodupWords (mergeStepOmp d s) := by
  cases hbe : bumpExact d.entries s with
  | none =>
    have hno := (bumpExact_eq_none d.entries s).1 hbe
    unfold NodupWords mergeStepOmp
    rw [hbe]
    refine List.pairwise_cons.2 ⟨?_, h⟩
    intro e he hc
    exact hno e he hc.symm
  | some es =>
    have hwds := bumpExact_words d.entries es s hbe
    have hp2 : (d.entries.map Entry.word).Pairwise Ne :=
      (List.pairwise_map (f := Entry.word)).2 h
    have hp3 : (es.map Entry.word).Pairwise Ne := by rw [hwds]; exact hp2
    unfold NodupWords mergeStepOmp
    rw [hbe]
    exact (List.pairwise_map (f := Entry.word)).1 hp3

theorem NodupWords_merge_omp (d s : HMap) (h : NodupWords d) :
    NodupWords (merge_hashmaps_omp d s) :=
  foldl_preserve NodupWords mergeStepOmp s.entries
    (fun d2 e _ => NodupWords_mergeStepOmp d2 e) d h

theorem NodupWords_empty : NodupWords HMap.empty := by
  unfold NodupWords HMap.empty
  simp

theorem Inv_NodupWords (m : HMap) (h : Inv m) : NodupWords m :=
  h.1.imp fun hne hc => hne (by rw [hc])

theorem PosCounts_mergeStepOmp (d : HMap) (s : Entry) (hs : 1 ≤ s.count)
    (h : PosCounts d) : PosCounts (mergeStepOmp d s) := by
  intro e he
  unfold mergeStepOmp at he
  cases hbe : bumpExact d.entries s with
  | none =>
    rw [hbe] at he
    simp at he
    rcases he with rfl | he2
    · exact hs
    · exact h e he2
  | some es =>
    rw [hbe] at he
    simp at he
    exact bumpExact_counts d.entries es s hbe h e he

theorem PosCounts_merge_omp (d s : HMap) (hs : PosCounts s) (h : PosCounts d) :
    PosCounts (merge_hashmaps_omp d s) :=
  foldl_preserve PosCounts mergeStepOmp s.entries
    (fun d2 e he => PosCounts_mergeStepOmp d2 e (hs e he)) d h

theorem WF_mergeStepOmp (d : HMap) (s : Entry) (hs : s.word.length ≤ MAX_WORD_LEN - 1)
    (h : WF d) : WF (mergeStepOmp d s) := by
  intro e he
  unfold mergeStepOmp at he
  cases hbe : bumpExact d.entries s with
  | none =>
    rw [hbe] at he
    simp at he
    rcases he with rfl | he2
    · exact hs
    · exact h e he2
  | some es =>
    rw [hbe] at he
    simp at he
    have hwds := bumpExact_words d.entries es s hbe
    have : e.word ∈ d.entries.map Entry.word := by
      rw [← hwds]; exact List.mem_map_of_mem _ he
    obtain ⟨e2, he2, heq⟩ := List.mem_map.1 this
    rw [← heq]
    exact h e2 he2

theorem WF_merge_omp (d s : HMap) (hs : WF s) (h : WF d) :
    WF (merge_hashmaps_omp d s) :=
  foldl_preserve WF mergeStepOmp s.entries
    (fun d2 e he => WF_mergeStepOmp d2 e (hs e he)) d h

/-! Tokenizer: the C loop computes the spec splitter up to 99-byte
truncation, provided the stream is NUL-free. -/

theorem maxlen_pos : 0 < MAX_WORD_LEN - 1 := by decide

theorem tokAux_spec (delims : List Nat) :
    ∀ s p : List Nat,
      tokAux delims s ((p.take (MAX_WORD_LEN - 1)).reverse)
        = (specSplit delims s p).map (List.take (MAX_WORD_LEN - 1)) := by
  intro s
  induction s with
  | nil =>
    intro p
    by_cases hp : p = []
    · subst hp; simp [tokAux, specSplit]
    · have h1 : ((p.take (MAX_WORD_LEN - 1)).reverse).isEmpty = false := by
        simp [List.isEmpty_eq_false, List.take_eq_nil_iff, hp, MAX_WORD_LEN]
      have h2 : p.isEmpty = false := by simp [List.isEmpty_eq_false, hp]
      simp [tokAux, specSplit, h1, h2]
  | cons c cs ih =>
    intro p
    by_cases hd : is_delimiter delims c
    · by_cases hp : p = []
      · subst hp
        simpa [tokAux, specSplit, hd] using ih []
      · have h1 : ((p.take (MAX_WORD_LEN - 1)).reverse).isEmpty = false := by
          simp [List.isEmpty_eq_false, List.take_eq_nil_iff, hp, MAX_WORD_LEN]
        have h2 : p.isEmpty = false := by simp [List.isEmpty_eq_false, hp]
        have ih0 := ih []
        simp only [List.take_nil, List.reverse_nil] at ih0
        simp [tokAux, specSplit, hd, h1, h2, ih0]
    · by_cases hl : p.length < MAX_WORD_LEN - 1
      · have hlt : ((p.take (MAX_WORD_LEN - 1)).reverse).length < MAX_WORD_LEN - 1 := by
          simp only [List.length_reverse, List.length_take]
          omega
        have e1 : p.take (MAX_WORD_LEN - 1) = p := List.take_of_length_le (by omega)
        have e2 : (p ++ [c]).take (MAX_WORD_LEN - 1) = p ++ [c] :=
          List.take_of_length_le (by simp; omega)
        have hacc : c :: (p.take (MAX_WORD_LEN - 1)).reverse
            = ((p ++ [c]).take (MAX_WORD_LEN - 1)).reverse := by
          rw [e1, e2]
          simp
        simp only [tokAux, hd, Bool.false_eq_true, if_false]
        rw [if_pos hlt, hacc, ih (p ++ [c])]
        simp only [specSplit, hd, Bool.false_eq_true, if_false]
      · have hge : ¬ ((p.take (MAX_WORD_LEN - 1)).reverse).length < MAX_WORD_LEN - 1 := by
          simp only [List.length_reverse, List.length_take]
          omega
        have hacc : (p.take (MAX_WORD_LEN - 1)).reverse
            = ((p ++ [c]).take (MAX_WORD_LEN - 1)).reverse := by
          rw [List.take_append_of_le_length (by omega)]
        simp only [tokAux, hd, Bool.false_eq_true, if_false]
        rw [if_neg hge, hacc, ih (p ++ [c])]
        simp only [specSplit, hd, Bool.false_eq_true, if_false]

/-- The flushed token buffers are exactly the maximal non-delimiter runs,
each truncated to 99 bytes. -/
theorem tokenize_eq_spec (delims stream : List Nat) :
    tokenize delims stream
      = (specSplit delims stream []).map (List.take (MAX_WORD_LEN - 1)) := by
  have h := tokAux_spec delims stream []
  simpa [tokenize] using h

theorem specSplit_bytes (delims : List Nat) (Q : Nat → Prop) :
    ∀ s p : List Nat, (∀ c ∈ s, is_delimiter delims c = false → Q c) → (∀ c ∈ p, Q c) →
      ∀ t ∈ specSplit delims s p, ∀ c ∈ t, Q c := by
  intro s
  induction s with
  | nil =>
    intro p _ hp t ht
    by_cases h : p = []
    · subst h; simp [specSplit] at ht
    · have : p.isEmpty = false := by simp [h]
      simp [specSplit, this] at ht
      subst ht
      exact hp
  | cons c cs ih =>
    intro p hs hp t ht
    by_cases hd : is_delimiter delims c
    · by_cases h : p = []
      · subst h
        simp only [specSplit, hd, if_true, List.isEmpty_nil, if_pos] at ht
        exact ih [] (fun b hb => hs b (by simp [hb])) (by simp) t ht
      · have hne : p.isEmpty = false := by simp [h]
        simp only [specSplit, hd, if_true, hne, Bool.false_eq_true, if_false] at ht
        rcases List.mem_cons.1 ht with rfl | ht2
        · exact hp
        · exact ih [] (fun b hb => hs b (by simp [hb])) (by simp) t ht2
    · simp only [specSplit, hd, Bool.false_eq_true, if_false] at ht
      refine ih (p ++ [c]) (fun b hb => hs b (by simp [hb])) ?_ t ht
      intro b hb
      rcases List.mem_append.1 hb with hb2 | hb2
      · exact hp b hb2
      · simp at hb2
        subst hb2
        exact hs b (by simp) (by simpa using hd)

theorem specSplit_not_nil (delims : List Nat) :
    ∀ s p : List Nat, ∀ t ∈ specSplit delims s p, t ≠ [] := by
  intro s
  induction s with
  | nil =>
    intro p t ht
    by_cases hp : p = []
    · subst hp; simp [specSplit] at ht
    · have : p.isEmpty = false := by simp [hp]
      simp [specSplit, this] at ht
      subst ht
      exact hp
  | cons c cs ih =>
    intro p t ht
    by_cases hd : is_delimiter delims c
    · by_cases hp : p = []
      · subst hp
        simp only [specSplit, hd, if_true, List.isEmpty_nil, if_pos] at ht
        exact ih [] t ht
      · have hne : p.isEmpty = false := by simp [hp]
        simp only [specSplit, hd, if_true, hne, Bool.false_eq_true, if_false] at ht
        rcases List.mem_cons.1 ht with rfl | ht2
        · exact hp
        · exact ih [] t ht2
    · simp only [specSplit, hd, Bool.false_eq_true, if_false] at ht
      exact ih (p ++ [c]) t ht

/-! Byte-level facts about the emitted tokens. -/

theorem tokenize_length_le (delims stream : List Nat) :
    ∀ t ∈ tokenize delims stream, t.length ≤ MAX_WORD_LEN - 1 := by
  intro t ht
  rw [tokenize_eq_spec] at ht
  obtain ⟨r, _, rfl⟩ := List.mem_map.1 ht
  exact List.length_take_le _ _

theorem tokenize_no_delim (delims stream : List Nat) :
    ∀ t ∈ tokenize delims stream, ∀ c ∈ t, is_delimiter delims c = false := by
  intro t ht c hc
  rw [tokenize_eq_spec] at ht
  obtain ⟨r, hr, rfl⟩ := List.mem_map.1 ht
  have hcr : c ∈ r := List.take_subset _ _ hc
  have := specSplit_bytes delims (fun b => is_delimiter delims b = false) stream []
    (fun b _ hb => hb) (by simp) r hr c hcr
  exact this

theorem ctokens_eq_tokenize (delims stream : List Nat) (h : 0 ∉ stream) :
    ctokens delims stream = tokenize delims stream := by
  unfold ctokens
  have hz : ∀ t ∈ tokenize delims stream, t.takeWhile (fun c => !(c == 0)) = t := by
    intro t ht
    refine List.takeWhile_eq_self_iff.2 fun c hc => ?_
    rw [tokenize_eq_spec] at ht
    obtain ⟨r, hr, rfl⟩ := List.mem_map.1 ht
    have hcr : c ∈ r := List.take_subset _ _ hc
    have := specSplit_bytes delims (fun b => b ≠ 0) stream []
      (fun b hb _ => fun he => h (he ▸ hb)) (by simp) r hr c hcr
    simpa using this
  calc (tokenize delims stream).map (List.takeWhile fun c => !(c == 0))
      = (tokenize delims stream).map id := List.map_congr_left fun t ht => hz t ht
    _ = tokenize delims stream := List.map_id _

theorem ctokens_length_le (delims stream : List Nat) :
    ∀ t ∈ ctokens delims stream, t.length ≤ MAX_WORD_LEN - 1 := by
  intro t ht
  obtain ⟨r, hr, rfl⟩ := List.mem_map.1 ht
  calc (r.takeWhile fun c => !(c == 0)).length
      ≤ r.length := (List.takeWhile_sublist _).length_le
    _ ≤ MAX_WORD_LEN - 1 := tokenize_length_le delims stream r hr

theorem ctokens_no_nul (delims stream : List Nat) :
    ∀ t ∈ ctokens delims stream, 0 ∉ t := by
  intro t ht hc
  obtain ⟨r, _, rfl⟩ := List.mem_map.1 ht
  have := List.mem_takeWhile_imp hc
  simp at this

theorem ctokens_no_newline (delims stream : List Nat) :
    ∀ t ∈ ctokens delims stream, 10 ∉ t ∧ 13 ∉ t := by
  intro t ht
  obtain ⟨r, hr, rfl⟩ := List.mem_map.1 ht
  constructor <;> intro hc
  · have h10 : (10 : Nat) ∈ r := (List.takeWhile_sublist _).subset hc
    have := tokenize_no_delim delims stream r hr 10 h10
    simp [is_delimiter] at this
  · have h13 : (13 : Nat) ∈ r := (List.takeWhile_sublist _).subset hc
    have := tokenize_no_delim delims stream r hr 13 h13
    simp [is_delimiter] at this

/-! The per-file table inherits every table predicate from the token facts. -/

theorem WF_fileTable (delims content : List Nat) : WF (fileTable delims content) :=
  WF_insertList _ _ WF_empty

theorem Inv_fileTable (delims content : List Nat) : Inv (fileTable delims content) :=
  Inv_insertList _ (ctokens_length_le delims content) _ Inv_empty

theorem PosCounts_fileTable (delims content : List Nat) :
    PosCounts (fileTable delims content) :=
  PosCounts_insertList _ _ PosCounts_empty

theorem wire_fileTable (delims content : List Nat)
    (hcolon : ∀ t ∈ ctokens delims content, 58 ∉ t) :
    wireEntries (fileTable delims content) :=
  wire_insertList _
    (fun t ht =>
      ⟨ctokens_no_nul delims content t ht, (ctokens_no_newline delims content t ht).1,
        hcolon t ht⟩) _ (by intro e he; simp [HMap.empty] at he)

/-! Decimal rendering and `atoi` parsing round-trip. -/

theorem decDigitsAux_irrel : ∀ (f1 f2 n : Nat), n < f1 → n < f2 →
    decDigitsAux f1 n = decDigitsAux f2 n := by
  intro f1
  induction f1 with
  | zero => intro f2 n h1 _; omega
  | succ g ih =>
    intro f2 n h1 h2
    cases f2 with
    | zero => omega
    | succ g2 =>
      simp only [decDigitsAux]
      split_ifs with h
      · rfl
      · have hdiv : n / 10 < n := Nat.div_lt_self (by omega) (by omega)
        rw [ih g2 (n / 10) (by omega) (by omega)]

theorem decDigits_eq (n : Nat) :
    decDigits n = if n < 10 then [48 + n] else decDigits (n / 10) ++ [48 + n % 10] := by
  show decDigitsAux (n + 1) n = _
  rw [decDigitsAux]
  split_ifs with h
  · rfl
  · have hdiv : n / 10 < n := Nat.div_lt_self (by omega) (by omega)
    rw [decDigitsAux_irrel n (n / 10 + 1) (n / 10) (by omega) (by omega)]
    rfl

theorem decDigits_bytes (n : Nat) : ∀ c ∈ decDigits n, 48 ≤ c ∧ c ≤ 57 := by
  induction n using Nat.strong_induction_on with
  | _ n ih =>
    rw [decDigits_eq]
    split_ifs with h
    · intro c hc
      simp at hc
      omega
    · intro c hc
      rcases List.mem_append.1 hc with hc2 | hc2
      · exact ih (n / 10) (Nat.div_lt_self (by omega) (by omega)) c hc2
      · simp at hc2
        have : n % 10 < 10 := Nat.mod_lt _ (by omega)
        omega

theorem decDigits_ne_nil (n : Nat) : decDigits n ≠ [] := by
  rw [decDigits_eq]
  split_ifs <;> simp

theorem atoiDigits_append (xs ys : List Nat) (hx : ∀ c ∈ xs, 48 ≤ c ∧ c ≤ 57) :
    ∀ acc, atoiDigits (xs ++ ys) acc = atoiDigits ys (atoiDigits xs acc) := by
  induction xs with
  | nil => intro acc; simp [atoiDigits]
  | cons c cs ih =>
    intro acc
    have hc := hx c (by simp)
    simp only [List.cons_append, atoiDigits, hc, and_self, if_pos]
    exact ih (fun b hb => hx b (by simp [hb])) _

theorem atoiDigits_decDigits (n : Nat) :
    ∀ acc, atoiDigits (decDigits n) acc = acc * 10 ^ (decDigits n).length + n := by
  induction n using Nat.strong_induction_on with
  | _ n ih =>
    intro acc
    rw [decDigits_eq]
    split_ifs with h
    · have : (48 ≤ 48 + n ∧ 48 + n ≤ 57) := by omega
      simp [atoiDigits, this]
    · have hdiv := Nat.div_lt_self (show 0 < n by omega) (show 1 < 10 by omega)
      rw [atoiDigits_append _ _ (decDigits_bytes (n / 10)) acc, ih (n / 10) hdiv acc]
      have hdig : (48 ≤ 48 + n % 10 ∧ 48 + n % 10 ≤ 57) := by
        have : n % 10 < 10 := Nat.mod_lt _ (by omega)
        omega
      simp only [atoiDigits, hdig, and_self, if_pos]
      have hmod := Nat.div_add_mod n 10
      simp only [List.length_append, List.length_cons, List.length_nil]
      ring_nf
      omega

theorem isSpaceB_digit (c : Nat) (h : 48 ≤ c) : isSpaceB c = false := by
  simp only [isSpaceB]
  simp only [Bool.or_eq_false_iff, Bool.and_eq_false_iff]
  constructor
  · simp; omega
  · right; simp; omega

theorem atoiM_decDigits (n : Nat) : atoiM (decDigits n) = (n : Int) := by
  obtain ⟨c, cs, hcons⟩ : ∃ c cs, decDigits n = c :: cs := by
    cases h : decDigits n with
    | nil => exact absurd h (decDigits_ne_nil n)
    | cons c cs => exact ⟨c, cs, rfl⟩
  have hc : 48 ≤ c ∧ c ≤ 57 := decDigits_bytes n c (by rw [hcons]; simp)
  have hdrop : (c :: cs).dropWhile isSpaceB = c :: cs := by
    simp [List.dropWhile_cons, isSpaceB_digit c hc.1]
  have h43 : ¬ (c = 43) := by omega
  have h45 : ¬ (c = 45) := by omega
  have := atoiDigits_decDigits n 0
  rw [hcons] at this
  simp only [atoiM, hcons, hdrop, List.headD_cons, h43, if_false, h45, if_false]
  rw [this]
  simp

/-! Splitting a serialized buffer back into its records. -/

theorem linesAux_append (x : List Nat) (hx : (10 : Nat) ∉ x) :
    ∀ (r p : List Nat), linesAux (x ++ r) p = linesAux r (x.reverse ++ p) := by
  induction x with
  | nil => intro r p; simp
  | cons c cs ih =>
    intro r p
    have hc : ¬ (c == 10) = true := by
      simp only [beq_iff_eq]
      intro h
      exact hx (by simp [h])
    simp only [List.cons_append, linesAux, hc, Bool.false_eq_true, if_false, List.append_eq]
    rw [ih (fun h => hx (by simp [h])) r (c :: p)]
    simp

theorem recBody_no_newline (e : Entry) (hw : (10 : Nat) ∉ e.word) :
    (10 : Nat) ∉ recBody e := by
  intro h
  unfold recBody at h
  rcases List.mem_append.1 h with h2 | h2
  · exact hw h2
  · rcases List.mem_cons.1 h2 with h3 | h3
    · omega
    · have := decDigits_bytes e.count 10 h3
      omega

theorem recBody_ne_nil (e : Entry) : recBody e ≠ [] := by
  unfold recBody
  simp

theorem splitLines_flatMap (es : List Entry) (h : ∀ e ∈ es, (10 : Nat) ∉ e.word) :
    splitLines (es.flatMap record) = es.map recBody := by
  induction es with
  | nil => simp [splitLines, linesAux]
  | cons e es ih =>
    have hrec : record e = recBody e ++ [10] := by
      unfold record recBody
      simp
    have hb := recBody_no_newline e (h e (by simp))
    unfold splitLines
    rw [List.flatMap_cons, hrec]
    have hassoc : (recBody e ++ [10]) ++ es.flatMap record
        = recBody e ++ (10 :: es.flatMap record) := by simp
    rw [hassoc, linesAux_append (recBody e) hb _ []]
    have hne : ((recBody e).reverse ++ []).isEmpty = false := by
      simp [List.isEmpty_eq_false, recBody_ne_nil e]
    simp only [linesAux, beq_self_eq_true, if_true, hne, Bool.false_eq_true, if_false]
    rw [List.append_nil, List.reverse_reverse]
    exact congrArg (recBody e :: ·) (ih fun x hx => h x (by simp [hx]))

theorem takeWhile_middle {p : Nat → Bool} (xs ys : List Nat) (y : Nat)
    (hx : ∀ c ∈ xs, p c = true) (hy : p y = false) :
    (xs ++ y :: ys).takeWhile p = xs ∧ (xs ++ y :: ys).dropWhile p = y :: ys := by
  induction xs with
  | nil => simp [List.takeWhile_cons, List.dropWhile_cons, hy]
  | cons c cs ih =>
    have hc := hx c (by simp)
    have ih2 := ih fun b hb => hx b (by simp [hb])
    simp [List.takeWhile_cons, List.dropWhile_cons, hc, ih2.1, ih2.2]

theorem parseRec_recBody (e : Entry) (hc : (58 : Nat) ∉ e.word) :
    parseRec (recBody e) = some (e.word, (e.count : Int)) := by
  have hmem : (58 : Nat) ∈ recBody e := by
    unfold recBody
    simp
  have hcontains : (recBody e).contains 58 = true := by
    simpa [List.contains] using hmem
  have hx : ∀ c ∈ e.word, (fun c => !(c == 58)) c = true := by
    intro c hcw
    simp only [Bool.not_eq_eq_eq_not, Bool.not_true, beq_eq_false_iff_ne]
    exact fun h => hc (h ▸ hcw)
  have hy : (fun c => !(c == 58)) 58 = false := by simp
  have hmid := takeWhile_middle e.word (decDigits e.count) 58 hx hy
  unfold recBody at hmid
  simp only [recBody] at hcontains
  simp only [parseRec, recBody, hmid.1, hmid.2, List.tail_cons]
  rw [if_pos hcontains, atoiM_decDigits]

theorem serialize_no_nul (m : HMap) (hw : wireEntries m) :
    ∀ c ∈ m.entries.flatMap record, c ≠ 0 := by
  intro c hcm
  obtain ⟨e, he, hce⟩ := List.mem_flatMap.1 hcm
  unfold record at hce
  rcases List.mem_append.1 hce with h2 | h2
  · exact fun h0 => (hw e he).1 (h0 ▸ h2)
  · rcases List.mem_cons.1 h2 with h3 | h3
    · omega
    · rcases List.mem_append.1 h3 with h4 | h4
      · have := decDigits_bytes e.count c h4
        omega
      · simp at h4
        omega

/-! The deserializer is the fold of `insertN` over the well-formed records. -/

theorem sentinel_parsedRecs (buf : List Nat) (h : buf.length ≤ 1 ∧ buf.headD 1 = 0) :
    parsedRecs buf = [] := by
  match buf with
  | [] => simp [parsedRecs, splitLines, linesAux]
  | [c] =>
    simp at h
    subst h
    simp [parsedRecs, List.takeWhile, splitLines, linesAux]
  | c :: d :: rest => simp at h

theorem deserialize_eq_foldRecs (m : HMap) (buf : List Nat) :
    deserialize_hashmap m buf
      = (parsedRecs buf).foldl (fun d p => insertN d p.1 p.2) m := by
  unfold deserialize_hashmap
  split_ifs with hs
  · rw [sentinel_parsedRecs buf hs]
    simp
  · unfold parsedRecs
    generalize splitLines (buf.takeWhile fun c => !(c == 0)) = lines
    induction lines generalizing m with
    | nil => simp
    | cons line lines ih =>
      simp only [List.foldl_cons, List.filterMap_cons]
      cases hp : parseRec line with
      | none => exact ih m
      | some p =>
        obtain ⟨w, c⟩ := p
        by_cases hc : 0 < c
        · simp only [hc, if_pos, List.foldl_cons]
          exact ih (insertN m w c.toNat)
        · simp only [hc, if_false]
          exact ih m

theorem deserialize_serialize (g m : HMap) (hw : wireEntries m) (hp : PosCounts m) :
    deserialize_hashmap g (serialize_hashmap m) = merge_hashmaps g m := by
  by_cases hemp : m.entries.isEmpty
  · have h1 : m.entries = [] := by simpa [List.isEmpty_iff] using hemp
    unfold deserialize_hashmap serialize_hashmap merge_hashmaps
    simp [hemp, h1]
  · have h1 : serialize_hashmap m = m.entries.flatMap record := by
      unfold serialize_hashmap
      simp [hemp]
    rw [deserialize_eq_foldRecs, h1]
    have htw : (m.entries.flatMap record).takeWhile (fun c => !(c == 0))
        = m.entries.flatMap record := by
      refine List.takeWhile_eq_self_iff.2 fun c hcm => ?_
      simpa using serialize_no_nul m hw c hcm
    unfold parsedRecs
    rw [htw, splitLines_flatMap m.entries (fun e he => (hw e he).2.1)]
    rw [List.filterMap_map]
    have hfm : ∀ e ∈ m.entries,
        (fun line =>
            match parseRec line with
            | some (w, c) => if 0 < c then some (w, c.toNat) else none
            | none => none) (recBody e) = some (e.word, e.count) := by
      intro e he
      have hpr := parseRec_recBody e (hw e he).2.2
      have hcpos : (0 : Int) < (e.count : Int) := by
        have := hp e he
        omega
      simp only [hpr, hcpos, if_pos, Int.toNat_natCast]
    have hfilter : ∀ (es : List Entry), (∀ e ∈ es, e ∈ m.entries) →
        es.filterMap ((fun line =>
            match parseRec line with
            | some (w, c) => if 0 < c then some (w, c.toNat) else none
            | none => none) ∘ recBody)
          = es.map fun e => (e.word, e.count) := by
      intro es
      induction es with
      | nil => intro _; simp
      | cons e es ih =>
        intro hsub
        simp only [List.filterMap_cons, Function.comp, hfm e (hsub e (by simp)),
          List.map_cons]
        rw [ih fun x hx => hsub x (by simp [hx])]
    rw [hfilter m.entries fun e he => he, List.foldl_map]
    rfl

/-! Exact shapes of repeated insertion, and reconstruction of a table from
its own records. -/

theorem insert_word_of_match (m : HMap) (w : List Nat) (l1 l2 : List Entry) (e : Entry)
    (hsplit : m.entries = l1 ++ e :: l2) (hl1 : ∀ x ∈ l1, fold x.word ≠ fold w)
    (he : fold e.word = fold w) :
    insert_word m w
      = { entries := l1 ++ { e with count := e.count + 1 } :: l2, items := m.items } := by
  unfold insert_word
  rw [hsplit, bumpCase_append l1 l2 e w hl1 he]

theorem insertN_head (w : List Nat) (es : List Entry) (n : Nat) :
    ∀ (k j : Nat), insertN ⟨⟨w, j⟩ :: es, n⟩ w k = ⟨⟨w, j + k⟩ :: es, n⟩ := by
  intro k
  induction k with
  | zero => intro j; simp [insertN]
  | succ i ih =>
    intro j
    have hins : insert_word ⟨⟨w, j⟩ :: es, n⟩ w = ⟨⟨w, j + 1⟩ :: es, n⟩ := by
      unfold insert_word
      simp [bumpCase]
    simp only [insertN, hins, ih (j + 1)]
    have h2 : j + 1 + i = j + (i + 1) := by omega
    rw [h2]

theorem insertN_fresh (m : HMap) (w : List Nat) (c : Nat)
    (hfresh : ∀ x ∈ m.entries, fold x.word ≠ fold w)
    (hlen : w.length ≤ MAX_WORD_LEN - 1) (hc : 1 ≤ c) :
    insertN m w c = ⟨⟨w, c⟩ :: m.entries, m.items + 1⟩ := by
  obtain ⟨k, rfl⟩ : ∃ k, c = k + 1 := ⟨c - 1, by omega⟩
  have hins : insert_word m w = ⟨⟨w, 1⟩ :: m.entries, m.items + 1⟩ := by
    rw [insert_word_of_no_match m w hfresh, List.take_of_length_le hlen]
  simp only [insertN, hins, insertN_head w m.entries (m.items + 1) k 1]
  have h2 : 1 + k = k + 1 := by omega
  rw [h2]

theorem merge_into_fresh (es : List Entry) :
    ∀ (acc : HMap),
      (∀ x ∈ acc.entries, ∀ e ∈ es, fold x.word ≠ fold e.word) →
      es.Pairwise (fun a b => fold a.word ≠ fold b.word) →
      (∀ e ∈ es, e.word.length ≤ MAX_WORD_LEN - 1) →
      (∀ e ∈ es, 1 ≤ e.count) →
      es.foldl (fun d e => insertN d e.word e.count) acc
        = ⟨es.reverse ++ acc.entries, acc.items + es.length⟩ := by
  induction es with
  | nil => intro acc _ _ _ _; simp
  | cons e es ih =>
    intro acc hacc hpw hlen hpos
    have hstep : insertN acc e.word e.count = ⟨e :: acc.entries, acc.items + 1⟩ := by
      rw [insertN_fresh acc e.word e.count (fun x hx => hacc x hx e (by simp))
        (hlen e (by simp)) (hpos e (by simp))]
    simp only [List.foldl_cons, hstep]
    rw [ih ⟨e :: acc.entries, acc.items + 1⟩ ?_ (List.pairwise_cons.1 hpw).2
      (fun x hx => hlen x (by simp [hx])) (fun x hx => hpos x (by simp [hx]))]
    · simp only [List.reverse_cons, List.append_assoc, List.singleton_append,
        List.length_cons]
      congr 1
      omega
    · intro x hx e2 he2
      rcases List.mem_cons.1 hx with rfl | hx2
      · exact (List.pairwise_cons.1 hpw).1 e2 he2
      · exact hacc x hx2 e2 (by simp [he2])

theorem merge_empty_reconstruct (m : HMap) (hInv : Inv m) (hWF : WF m)
    (hp : PosCounts m) :
    merge_hashmaps HMap.empty m = ⟨m.entries.reverse, m.entries.length⟩ := by
  unfold merge_hashmaps
  rw [merge_into_fresh m.entries HMap.empty (by intro x hx; simp [HMap.empty] at hx)
    hInv.1 hWF hp]
  simp [HMap.empty]

/-! Remaining helper lemmas for the claim theorems. -/

theorem gcount_foldRecs (k : List Nat) :
    ∀ (ps : List (List Nat × Nat)) (m : HMap), WF m →
      gcount (ps.foldl (fun d p => insertN d p.1 p.2) m) k
        = gcount m k
            + (ps.map fun p =>
                if fold (p.1.take (MAX_WORD_LEN - 1)) = k then p.2 else 0).sum := by
  intro ps
  induction ps with
  | nil => intro m _; simp
  | cons p ps ih =>
    intro m hm
    simp only [List.foldl_cons, List.map_cons, List.sum_cons]
    rw [ih (insertN m p.1 p.2) (WF_insertN p.1 p.2 m hm), gcount_insertN p.1 k p.2 m hm]
    have hmul : p.2 * (if fold (p.1.take (MAX_WORD_LEN - 1)) = k then 1 else 0)
        = if fold (p.1.take (MAX_WORD_LEN - 1)) = k then p.2 else 0 := by
      split_ifs <;> simp
    omega

theorem aggregateMpi_skips (delims : List Nat) :
    ∀ (fs : List FileRes) (g : HMap),
      fs.foldl
          (fun g f =>
            match process_file delims f with
            | some t => merge_hashmaps g t
            | none => g) g
        = (fs.filter fun f => (process_file delims f).isSome).foldl
            (fun g f =>
              match process_file delims f with
              | some t => merge_hashmaps g t
              | none => g) g := by
  intro fs
  induction fs with
  | nil => intro g; rfl
  | cons f fs ih =>
    intro g
    cases hf : process_file delims f with
    | none => simp only [List.foldl_cons, List.filter_cons, hf, Option.isSome_none,
        Bool.false_eq_true, if_false]; exact ih g
    | some t => simp only [List.foldl_cons, List.filter_cons, hf, Option.isSome_some,
        if_true]; exact ih (merge_hashmaps g t)

theorem gcount_insertList_short (ws : List (List Nat))
    (hws : ∀ w ∈ ws, w.length ≤ MAX_WORD_LEN - 1) (k : List Nat) :
    gcount (insertList HMap.empty ws) k
      = (ws.map fun w => if fold w = k then 1 else 0).sum := by
  rw [gcount_insertList k ws HMap.empty WF_empty, gcount_empty]
  have : (ws.map fun w => if fold (w.take (MAX_WORD_LEN - 1)) = k then 1 else 0)
      = ws.map fun w => if fold w = k then 1 else 0 := by
    refine List.map_congr_left fun w hw => ?_
    rw [List.take_of_length_le (hws w hw)]
  rw [this]
  omega

theorem WF_evalMpi (t : MTree) : WF t.evalMpi := by
  induction t with
  | leaf g => exact WF_insertList g HMap.empty WF_empty
  | node l r ihl ihr => exact WF_merge _ _ ihl

/-! Claim C5: postcondition of `insertOrIncrement`. -/

/-- C5: for every table and word, if an entry case-fold-matches the inserted
word then (under the table invariant) exactly that entry's count grows by one
and `items` is unchanged, every other entry staying as it was; otherwise a
fresh entry with count 1 (spelled as the first 99 bytes of the word) is added
and `items` grows by one, all other entries unchanged. -/
theorem claim5_insert_word_post (m : HMap) (w : List Nat) :
    ((∀ e ∈ m.entries, fold e.word ≠ fold w) →
      insert_word m w
        = { entries := ⟨w.take (MAX_WORD_LEN - 1), 1⟩ :: m.entries,
            items := m.items + 1 })
    ∧ (∀ (l1 l2 : List Entry) (e : Entry), Inv m → m.entries = l1 ++ e :: l2 →
        fold e.word = fold w →
        insert_word m w
          = { entries := l1 ++ { e with count := e.count + 1 } :: l2,
              items := m.items }) := by
  constructor
  · exact insert_word_of_no_match m w
  · intro l1 l2 e hInv hsplit he
    refine insert_word_of_match m w l1 l2 e hsplit ?_ he
    intro x hx
    have hpw := hInv.1
    rw [hsplit] at hpw
    have hne := (List.pairwise_append.1 hpw).2.2 x hx e (by simp)
    exact fun hcon => hne (hcon.trans he.symm)

theorem claim5_witness :
    insert_word ⟨[⟨[97], 1⟩], 1⟩ [65] = { entries := [⟨[97], 2⟩], items := 1 }
    ∧ insert_word ⟨[⟨[98], 1⟩], 1⟩ [65]
        = { entries := [⟨[65], 1⟩, ⟨[98], 1⟩], items := 2 } := by
  constructor
  · exact (claim5_insert_word_post ⟨[⟨[97], 1⟩], 1⟩ [65]).2 [] [] ⟨[97], 1⟩
      (by decide) rfl (by decide)
  · exact (claim5_insert_word_post ⟨[⟨[98], 1⟩], 1⟩ [65]).1 (by decide)

/-! Claim C10: stored spellings are the verbatim first occurrence. -/

/-- C10: bumping an existing case-fold-matching entry never changes any
stored spelling; a genuinely new word is stored verbatim (its first 99 bytes,
the identity for every word the programs produce); hence the reported
spelling is the first occurrence inserted for that case-folded key and
depends on insertion order, as the final concrete conjunct shows. -/
theorem claim10_first_spelling (m : HMap) (w : List Nat) :
    ((∃ e ∈ m.entries, fold e.word = fold w) →
      (insert_word m w).entries.map Entry.word = m.entries.map Entry.word)
    ∧ ((∀ e ∈ m.entries, fold e.word ≠ fold w) → w.length ≤ MAX_WORD_LEN - 1 →
      (insert_word m w).entries.map Entry.word = w :: m.entries.map Entry.word)
    ∧ (insertList HMap.empty [[65, 112], [97, 112]]).entries.map Entry.word
        ≠ (insertList HMap.empty [[97, 112], [65, 112]]).entries.map Entry.word := by
  refine ⟨?_, ?_, by decide⟩
  · rintro ⟨e, he, hef⟩
    obtain ⟨es2, hbc⟩ := bumpCase_isSome m.entries w e he hef
    simp only [insert_word, hbc]
    exact bumpCase_words m.entries es2 w hbc
  · intro h hlen
    rw [insert_word_of_no_match m w h]
    simp [List.take_of_length_le hlen]

theorem claim10_witness :
    (insert_word ⟨[⟨[97], 3⟩], 1⟩ [65]).entries.map Entry.word = [[97]]
    ∧ (insert_word ⟨[⟨[98], 1⟩], 1⟩ [65]).entries.map Entry.word = [[65], [98]] := by
  constructor
  · exact (claim10_first_spelling ⟨[⟨[97], 3⟩], 1⟩ [65]).1 ⟨⟨[97], 3⟩, by decide, by decide⟩
  · exact (claim10_first_spelling ⟨[⟨[98], 1⟩], 1⟩ [65]).2.1 (by decide) (by decide)

/-! Claim C3: serialization round-trip. -/

/-- C3: deserializing the serialization of a table into a fresh table
reproduces exactly the (word, count) contents (in fact the same entry list,
reversed) with no record discarded, for every table whose stored words
survive the text encoding (no NUL, newline or colon — true of every token the
system produces when `':'` is a delimiter) — and the empty table serializes
to the single-NUL sentinel, which deserializes back to the empty table. -/
theorem claim3_roundtrip (m : HMap) (hInv : Inv m) (hWF : WF m) (hp : PosCounts m)
    (hw : wireEntries m) :
    sameContents (deserialize_hashmap HMap.empty (serialize_hashmap m)) m
    ∧ (deserialize_hashmap HMap.empty (serialize_hashmap m)).entries
        = m.entries.reverse
    ∧ (deserialize_hashmap HMap.empty (serialize_hashmap m)).items = m.items
    ∧ serialize_hashmap HMap.empty = [0]
    ∧ deserialize_hashmap HMap.empty [0] = HMap.empty := by
  have h1 : deserialize_hashmap HMap.empty (serialize_hashmap m)
      = ⟨m.entries.reverse, m.entries.length⟩ := by
    rw [deserialize_serialize HMap.empty m hw hp, merge_empty_reconstruct m hInv hWF hp]
  refine ⟨?_, by rw [h1], by rw [h1]; exact hInv.2.symm, by decide, by decide⟩
  intro e
  rw [h1]
  simp

theorem claim3_witness :
    Inv ⟨[⟨[122], 1⟩, ⟨[97, 98], 5⟩], 2⟩
    ∧ (deserialize_hashmap HMap.empty
          (serialize_hashmap ⟨[⟨[122], 1⟩, ⟨[97, 98], 5⟩], 2⟩)).entries
        = [⟨[97, 98], 5⟩, ⟨[122], 1⟩] :=
  ⟨by decide,
    (claim3_roundtrip ⟨[⟨[122], 1⟩, ⟨[97, 98], 5⟩], 2⟩ (by decide) (by decide)
      (by decide) (by decide)).2.1⟩

/-! Claim C9: malformed records are skipped, well-formed ones add their
count. -/

/-- C9: for every destination table and every received byte region, the
deserializer equals the fold of `insertN` over exactly the well-formed
records (a record is kept when it has a `':'` and its parsed count is
positive; all other lines leave the table untouched), and each kept record
adds its count to the total of its (truncated) case-folded word. -/
theorem claim9_malformed_recovery (m : HMap) (buf : List Nat) :
    deserialize_hashmap m buf
      = (parsedRecs buf).foldl (fun d p => insertN d p.1 p.2) m
    ∧ (WF m → ∀ k, gcount (deserialize_hashmap m buf) k
        = gcount m k
            + ((parsedRecs buf).map fun p =>
                if fold (p.1.take (MAX_WORD_LEN - 1)) = k then p.2 else 0).sum) := by
  refine ⟨deserialize_eq_foldRecs m buf, fun hWF k => ?_⟩
  rw [deserialize_eq_foldRecs m buf]
  exact gcount_foldRecs k (parsedRecs buf) m hWF

theorem claim9_witness :
    WF HMap.empty
    ∧ gcount
        (deserialize_hashmap HMap.empty
          [97, 98, 58, 50, 10, 111, 111, 112, 115, 10, 99, 58, 45, 51, 10, 97, 66, 58,
            49, 10])
        [97, 98]
      = gcount HMap.empty [97, 98]
          + ((parsedRecs
                [97, 98, 58, 50, 10, 111, 111, 112, 115, 10, 99, 58, 45, 51, 10, 97, 66,
                  58, 49, 10]).map fun p =>
              if fold (p.1.take (MAX_WORD_LEN - 1)) = [97, 98] then p.2 else 0).sum :=
  ⟨WF_empty,
    (claim9_malformed_recovery HMap.empty
      [97, 98, 58, 50, 10, 111, 111, 112, 115, 10, 99, 58, 45, 51, 10, 97, 66, 58, 49,
        10]).2 WF_empty [97, 98]⟩

/-! Claim C8: aggregator error handling. -/

/-- C8 (amended): opening failure yields no table in both variants and a
mid-stream read error discards the partially built table in the MPI
aggregator; the fold the MPI caller performs over its files equals the same
fold over only the files whose aggregation succeeded, so failed files are
skipped without affecting the rest.  The OpenMP `process_file_sync`, however,
has no `ferror` check: a read error silently returns the table of the prefix
that was read. -/
theorem claim8_aggregator_errors (delims : List Nat) (fs : List FileRes) :
    process_file delims FileRes.openFail = none
    ∧ (∀ got : List Nat, process_file delims (FileRes.readFail got) = none)
    ∧ (∀ content : List Nat,
        process_file delims (FileRes.ok content) = some (fileTable delims content))
    ∧ process_file_sync delims FileRes.openFail = none
    ∧ (∀ got : List Nat,
        process_file_sync delims (FileRes.readFail got) = some (fileTable delims got))
    ∧ aggregateMpi delims fs
        = aggregateMpi delims (fs.filter fun f => (process_file delims f).isSome) := by
  refine ⟨rfl, fun _ => rfl, fun _ => rfl, rfl, fun _ => rfl, ?_⟩
  unfold aggregateMpi
  exact aggregateMpi_skips delims fs HMap.empty

theorem claim8_counterexample :
    process_file_sync [] (FileRes.readFail [97]) ≠ none
    ∧ process_file_sync [] (FileRes.readFail [97]) = some (fileTable [] [97]) :=
  ⟨Option.some_ne_none _, rfl⟩

/-! Claim C4: the table invariant and the OpenMP merge. -/

/-- C4: `insert_word` and the MPI merge preserve the table invariant (the
helper lemmas `Inv_insert_word` and `Inv_merge`), but the OpenMP
`merge_hashmaps` does not: merging the singleton tables for "Apple" and
"apple" — each of which satisfies the invariant — produces a table with two
entries whose case-folded words are both "apple". -/
theorem claim4_invariant_bug :
    Inv (insertList HMap.empty [[65, 112, 112, 108, 101]])
    ∧ Inv (insertList HMap.empty [[97, 112, 112, 108, 101]])
    ∧ ¬ Inv (merge_hashmaps_omp (insertList HMap.empty [[65, 112, 112, 108, 101]])
          (insertList HMap.empty [[97, 112, 112, 108, 101]]))
    ∧ (merge_hashmaps_omp (insertList HMap.empty [[65, 112, 112, 108, 101]])
          (insertList HMap.empty [[97, 112, 112, 108, 101]])).entries.map
        (fun e => fold e.word)
        = [[97, 112, 112, 108, 101], [97, 112, 112, 108, 101]] :=
  ⟨by decide, by decide, by decide, by decide⟩

/-! Claim C1: merge associativity / commutativity over any partition. -/

theorem gcount_evalMpi (t : MTree)
    (hlen : ∀ w ∈ t.words, w.length ≤ MAX_WORD_LEN - 1) (k : List Nat) :
    gcount t.evalMpi k = (t.words.map fun w => if fold w = k then 1 else 0).sum := by
  induction t with
  | leaf g => exact gcount_insertList_short g hlen k
  | node l r ihl ihr =>
    have hl : ∀ w ∈ l.words, w.length ≤ MAX_WORD_LEN - 1 := fun w hw =>
      hlen w (by simp [MTree.words, hw])
    have hr : ∀ w ∈ r.words, w.length ≤ MAX_WORD_LEN - 1 := fun w hw =>
      hlen w (by simp [MTree.words, hw])
    show gcount (merge_hashmaps l.evalMpi r.evalMpi) k = _
    rw [gcount_merge_wf _ _ k (WF_evalMpi l) (WF_evalMpi r), ihl hl, ihr hr]
    show _ = ((l.words ++ r.words).map fun w => if fold w = k then 1 else 0).sum
    rw [List.map_append, List.sum_append]

theorem gcount_evalOmp (t : MTree)
    (hlen : ∀ w ∈ t.words, w.length ≤ MAX_WORD_LEN - 1) (k : List Nat) :
    gcount t.evalOmp k = (t.words.map fun w => if fold w = k then 1 else 0).sum := by
  induction t with
  | leaf g => exact gcount_insertList_short g hlen k
  | node l r ihl ihr =>
    have hl : ∀ w ∈ l.words, w.length ≤ MAX_WORD_LEN - 1 := fun w hw =>
      hlen w (by simp [MTree.words, hw])
    have hr : ∀ w ∈ r.words, w.length ≤ MAX_WORD_LEN - 1 := fun w hw =>
      hlen w (by simp [MTree.words, hw])
    show gcount (merge_hashmaps_omp l.evalOmp r.evalOmp) k = _
    rw [gcount_merge_omp, ihl hl, ihr hr]
    show _ = ((l.words ++ r.words).map fun w => if fold w = k then 1 else 0).sum
    rw [List.map_append, List.sum_append]

/-- C1 (amended): for every partition of a word multiset into groups and
every pairwise merge order (an arbitrary merge tree), with either merge
implementation, the resulting table assigns every case-folded key exactly the
total count that sequential insertion of the whole multiset assigns it.  The
entry-level (spelling, count) contents are NOT preserved — see the
counterexample theorem. -/
theorem claim1_merge_any_order (t : MTree)
    (hlen : ∀ w ∈ t.words, w.length ≤ MAX_WORD_LEN - 1) (k : List Nat) :
    gcount t.evalMpi k = gcount (insertList HMap.empty t.words) k
    ∧ gcount t.evalOmp k = gcount (insertList HMap.empty t.words) k := by
  rw [gcount_insertList_short t.words hlen k]
  exact ⟨gcount_evalMpi t hlen k, gcount_evalOmp t hlen k⟩

theorem claim1_witness :
    (∀ w ∈ (MTree.node (MTree.leaf [[65]]) (MTree.leaf [[97]])).words,
      w.length ≤ MAX_WORD_LEN - 1)
    ∧ (gcount (MTree.node (MTree.leaf [[65]]) (MTree.leaf [[97]])).evalMpi [97]
          = gcount
              (insertList HMap.empty
                (MTree.node (MTree.leaf [[65]]) (MTree.leaf [[97]])).words) [97]
        ∧ gcount (MTree.node (MTree.leaf [[65]]) (MTree.leaf [[97]])).evalOmp [97]
          = gcount
              (insertList HMap.empty
                (MTree.node (MTree.leaf [[65]]) (MTree.leaf [[97]])).words) [97]) :=
  ⟨by decide,
    claim1_merge_any_order (MTree.node (MTree.leaf [[65]]) (MTree.leaf [[97]]))
      (by decide) [97]⟩

/-- C1 counterexample: the claim as stated — entry-level (word, count)
contents identical to sequential insertion — fails.  The OpenMP merge of the
invariant-satisfying singleton tables for "A" and "a" keeps two separate
entries, while sequential insertion of the multiset yields the single entry
("A", 2); and even the MPI merge, applied in the order table("a") then
table("A"), stores the spelling "a" where sequential insertion stores "A". -/
theorem claim1_counterexample :
    ¬ sameContents
        (merge_hashmaps_omp (insertList HMap.empty [[65]])
          (insertList HMap.empty [[97]]))
        (insertList HMap.empty [[65], [97]])
    ∧ ¬ sameContents
        (merge_hashmaps (merge_hashmaps HMap.empty (insertList HMap.empty [[97]]))
          (insertList HMap.empty [[65]]))
        (insertList HMap.empty [[65], [97]]) := by
  constructor
  · intro h
    have h2 := (h ⟨[65], 2⟩).2 (by decide)
    revert h2
    decide
  · intro h
    have h2 := (h ⟨[65], 2⟩).2 (by decide)
    revert h2
    decide

/-! Claim C6: the tokenizer contract. -/

/-- C6 counterexample: on the stream consisting of the single byte 0 (no NUL
byte is a delimiter), the claim promises the single token `[0]`, but the C
programs flush the word buffer as a C string, which is empty — an empty token
is emitted, and it differs from the promised maximal run. -/
theorem claim6_counterexample :
    ctokens [] [0] = [[]] ∧ specTokens [] [0] = [[0]]
    ∧ ctokens [] [0] ≠ specTokens [] [0] := by
  decide

/-- C6 (amended): on every NUL-free byte stream the emitted token sequence is
exactly the maximal runs of bytes that are neither in the supplied delimiter
set nor newline nor carriage-return, in stream order, each truncated to the
99-byte stored-word bound, and no token is emitted for an empty run. -/
theorem claim6_tokenizer (delims stream : List Nat) (h : 0 ∉ stream) :
    ctokens delims stream = specTokens delims stream
    ∧ [] ∉ ctokens delims stream
    ∧ ∀ t ∈ ctokens delims stream,
        t.length ≤ MAX_WORD_LEN - 1 ∧ ∀ c ∈ t, is_delimiter delims c = false := by
  have he : ctokens delims stream = specTokens delims stream :=
    (ctokens_eq_tokenize delims stream h).trans (tokenize_eq_spec delims stream)
  refine ⟨he, ?_, ?_⟩
  · rw [he]
    intro hmem
    unfold specTokens at hmem
    obtain ⟨r, hr, hre⟩ := List.mem_map.1 hmem
    have hrne := specSplit_not_nil delims stream [] r hr
    rw [List.take_eq_nil_iff] at hre
    rcases hre with h99 | hnil
    · exact absurd h99 (by decide)
    · exact hrne hnil
  · intro t ht
    rw [ctokens_eq_tokenize delims stream h] at ht
    exact ⟨tokenize_length_le delims stream t ht, tokenize_no_delim delims stream t ht⟩

theorem claim6_witness :
    (0 : Nat) ∉ [104, 105, 32, 121, 111, 10, 104, 105]
    ∧ ctokens [32] [104, 105, 32, 121, 111, 10, 104, 105]
        = specTokens [32] [104, 105, 32, 121, 111, 10, 104, 105] :=
  ⟨by decide, (claim6_tokenizer [32] [104, 105, 32, 121, 111, 10, 104, 105]
    (by decide)).1⟩

/-! The comparator orders: totality, transitivity, antisymmetry. -/

theorem lexLEb_refl : ∀ a : List Nat, lexLEb a a = true := by
  intro a
  induction a with
  | nil => rfl
  | cons x as ih => simp [lexLEb, ih]

theorem lexLEb_total : ∀ a b : List Nat, lexLEb a b = true ∨ lexLEb b a = true := by
  intro a
  induction a with
  | nil => intro b; left; rfl
  | cons x as ih =>
    intro b
    cases b with
    | nil => right; rfl
    | cons y bs =>
      by_cases h1 : x < y
      · left; simp [lexLEb, h1]
      · by_cases h2 : y < x
        · right; simp [lexLEb, h2]
        · have hxy : x = y := by omega
          subst hxy
          rcases ih bs with h | h
          · left; simpa [lexLEb, h1] using h
          · right; simpa [lexLEb, h1] using h

theorem lexLEb_antisymm : ∀ a b : List Nat,
    lexLEb a b = true → lexLEb b a = true → a = b := by
  intro a
  induction a with
  | nil =>
    intro b h1 h2
    cases b with
    | nil => rfl
    | cons y bs => simp [lexLEb] at h2
  | cons x as ih =>
    intro b h1 h2
    cases b with
    | nil => simp [lexLEb] at h1
    | cons y bs =>
      by_cases hxy : x < y
      · simp [lexLEb, hxy, Nat.lt_asymm hxy] at h2
      · by_cases hyx : y < x
        · simp [lexLEb, hxy, hyx] at h1
        · have : x = y := by omega
          subst this
          simp only [lexLEb, hxy, if_false] at h1 h2
          rw [ih bs h1 h2]

theorem lexLEb_trans : ∀ a b c : List Nat,
    lexLEb a b = true → lexLEb b c = true → lexLEb a c = true := by
  intro a
  induction a with
  | nil => intro b c _ _; rfl
  | cons x as ih =>
    intro b c h1 h2
    cases b with
    | nil => simp [lexLEb] at h1
    | cons y bs =>
      cases c with
      | nil => simp [lexLEb] at h2
      | cons z cs =>
        simp only [lexLEb] at h1 h2 ⊢
        by_cases hxy : x < y
        · by_cases hyz : y < z
          · have : x < z := by omega
            simp [this]
          · by_cases hzy : z < y
            · simp [hyz, hzy] at h2
            · have : y = z := by omega
              subst this
              simp [hxy]
        · by_cases hyx : y < x
          · simp [hxy, hyx] at h1
          · have hxy2 : x = y := by omega
            subst hxy2
            simp only [hxy, if_false] at h1 ⊢
            by_cases hxz : x < z
            · simp [hxz]
            · by_cases hzx : z < x
              · simp [hxz, hzx] at h2
              · have : x = z := by omega
                subst this
                simp only [hxz, if_false] at h2 ⊢
                exact ih bs cs h1 h2

theorem keyLE_total (x y : Nat × List Nat) : keyLE x y ∨ keyLE y x := by
  unfold keyLE
  by_cases h1 : x.1 = y.1
  · rcases lexLEb_total x.2 y.2 with h | h
    · left; right; exact ⟨h1, h⟩
    · right; right; exact ⟨h1.symm, h⟩
  · rcases Nat.lt_or_ge x.1 y.1 with h | h
    · right; left; exact h
    · left; left; omega

theorem keyLE_trans (x y z : Nat × List Nat) (h1 : keyLE x y) (h2 : keyLE y z) :
    keyLE x z := by
  unfold keyLE at h1 h2 ⊢
  rcases h1 with h1 | ⟨h1a, h1b⟩
  · rcases h2 with h2 | ⟨h2a, h2b⟩
    · left; omega
    · left; omega
  · rcases h2 with h2 | ⟨h2a, h2b⟩
    · left; omega
    · right; exact ⟨h1a.trans h2a, lexLEb_trans _ _ _ h1b h2b⟩

theorem keyLE_antisymm (x y : Nat × List Nat) (h1 : keyLE x y) (h2 : keyLE y x) :
    x = y := by
  unfold keyLE at h1 h2
  rcases h1 with h1 | ⟨h1a, h1b⟩
  · rcases h2 with h2 | ⟨h2a, h2b⟩
    · omega
    · omega
  · rcases h2 with h2 | ⟨h2a, h2b⟩
    · omega
    · have := lexLEb_antisymm _ _ h1b h2b
      exact Prod.ext h1a this

instance : IsTotal (Nat × List Nat) keyLE := ⟨keyLE_total⟩

instance : IsTrans (Nat × List Nat) keyLE := ⟨keyLE_trans⟩

instance : IsAntisymm (Nat × List Nat) keyLE := ⟨keyLE_antisymm⟩

instance : IsTotal Entry compare_words := ⟨fun a b => keyLE_total (key a) (key b)⟩

instance : IsTrans Entry compare_words :=
  ⟨fun a b c => keyLE_trans (key a) (key b) (key c)⟩

instance : IsTotal Entry compare_words_omp :=
  ⟨fun a b => keyLE_total (a.count, a.word) (b.count, b.word)⟩

instance : IsTrans Entry compare_words_omp :=
  ⟨fun a b c => keyLE_trans (a.count, a.word) (b.count, b.word) (c.count, c.word)⟩

theorem compare_words_omp_antisymm (a b : Entry) (h1 : compare_words_omp a b)
    (h2 : compare_words_omp b a) : a = b := by
  have h3 : ((a.count, a.word) : Nat × List Nat) = (b.count, b.word) :=
    keyLE_antisymm (a.count, a.word) (b.count, b.word) h1 h2
  have hc : a.count = b.count := congrArg Prod.fst h3
  have hw : a.word = b.word := congrArg Prod.snd h3
  cases a
  cases b
  simp_all

instance : IsAntisymm Entry compare_words_omp := ⟨compare_words_omp_antisymm⟩

theorem sorted_entries_perm (m : HMap) : (sorted_entries m).Perm m.entries :=
  List.perm_insertionSort compare_words m.entries

theorem sorted_entries_sorted (m : HMap) :
    List.Sorted compare_words (sorted_entries m) :=
  List.sorted_insertionSort compare_words m.entries

theorem sorted_entries_omp_perm (m : HMap) : (sorted_entries_omp m).Perm m.entries :=
  List.perm_insertionSort compare_words_omp m.entries

theorem sorted_entries_omp_sorted (m : HMap) :
    List.Sorted compare_words_omp (sorted_entries_omp m) :=
  List.sorted_insertionSort compare_words_omp m.entries

/-! A table satisfying the invariant determines its ranked key sequence from
its per-key counts alone, and an exact-distinct table determines its sorted
entry list from its per-spelling counts alone. -/

theorem gcount_unique (m : HMap) (hInv : Inv m) (e : Entry) (he : e ∈ m.entries) :
    gcount m (fold e.word) = e.count := by
  obtain ⟨l1, l2, hsplit⟩ := List.append_of_mem he
  have hpw := hInv.1
  rw [hsplit] at hpw
  have h1 : ∀ x ∈ l1, fold x.word ≠ fold e.word := fun x hx =>
    (List.pairwise_append.1 hpw).2.2 x hx e (by simp)
  have h2 : ∀ x ∈ l2, fold x.word ≠ fold e.word := fun x hx => by
    have := (List.pairwise_cons.1 (List.pairwise_append.1 hpw).2.1).1 x hx
    exact fun hc => this hc.symm
  unfold gcount
  rw [hsplit, List.map_append, List.sum_append, List.map_cons, List.sum_cons]
  rw [List.sum_eq_zero fun x hx => ?_, List.sum_eq_zero fun x hx => ?_]
  · simp
  · obtain ⟨u, hu, rfl⟩ := List.mem_map.1 hx
    simp [h2 u hu]
  · obtain ⟨u, hu, rfl⟩ := List.mem_map.1 hx
    simp [h1 u hu]

theorem gcount_pos_mem (m : HMap) (k : List Nat) (h : 0 < gcount m k) :
    ∃ e ∈ m.entries, fold e.word = k := by
  by_contra hno
  push_neg at hno
  have : gcount m k = 0 := by
    unfold gcount
    exact List.sum_eq_zero fun x hx => by
      obtain ⟨u, hu, rfl⟩ := List.mem_map.1 hx
      simp [hno u hu]
  omega

theorem key_mem_iff (m : HMap) (hInv : Inv m) (hpos : PosCounts m) (c : Nat)
    (k : List Nat) :
    (c, k) ∈ m.entries.map key ↔ gcount m k = c ∧ 0 < c := by
  constructor
  · intro h
    obtain ⟨e, he, hek⟩ := List.mem_map.1 h
    unfold key at hek
    have hc : e.count = c := congrArg Prod.fst hek
    have hk : fold e.word = k := congrArg Prod.snd hek
    rw [← hk, ← hc]
    exact ⟨gcount_unique m hInv e he, hpos e he⟩
  · rintro ⟨hg, hcpos⟩
    obtain ⟨e, he, hek⟩ := gcount_pos_mem m k (by omega)
    have := gcount_unique m hInv e he
    rw [hek] at this
    have hce : e.count = c := by omega
    refine List.mem_map.2 ⟨e, he, ?_⟩
    unfold key
    rw [hek, hce]

theorem keys_nodup (m : HMap) (hInv : Inv m) : (m.entries.map key).Nodup := by
  have : m.entries.Pairwise fun a b => key a ≠ key b := by
    refine hInv.1.imp fun hne => ?_
    intro hk
    exact hne (congrArg Prod.snd hk)
  exact List.Pairwise.map key (fun a b h => h) this

theorem rankedKeys_eq_of_gcount (m1 m2 : HMap) (h1 : Inv m1) (h2 : Inv m2)
    (p1 : PosCounts m1) (p2 : PosCounts m2)
    (hg : ∀ k, gcount m1 k = gcount m2 k) :
    rankedKeys m1 = rankedKeys m2 := by
  have hn1 := keys_nodup m1 h1
  have hn2 := keys_nodup m2 h2
  have hmem : ∀ p : Nat × List Nat, p ∈ m1.entries.map key ↔ p ∈ m2.entries.map key := by
    intro p
    obtain ⟨c, k⟩ := p
    rw [key_mem_iff m1 h1 p1 c k, key_mem_iff m2 h2 p2 c k, hg k]
  have hperm0 : (m1.entries.map key).Perm (m2.entries.map key) :=
    (List.perm_ext_iff_of_nodup hn1 hn2).2 hmem
  have hperm : (rankedKeys m1).Perm (rankedKeys m2) :=
    (((sorted_entries_perm m1).map key).trans hperm0).trans
      ((sorted_entries_perm m2).map key).symm
  have hs1 : List.Sorted keyLE (rankedKeys m1) :=
    List.Pairwise.map key (fun a b h => h) (sorted_entries_sorted m1)
  have hs2 : List.Sorted keyLE (rankedKeys m2) :=
    List.Pairwise.map key (fun a b h => h) (sorted_entries_sorted m2)
  exact List.eq_of_perm_of_sorted hperm hs1 hs2

theorem ecount_unique (m : HMap) (hN : NodupWords m) (e : Entry) (he : e ∈ m.entries) :
    ecount m e.word = e.count := by
  obtain ⟨l1, l2, hsplit⟩ := List.append_of_mem he
  have hpw := hN
  unfold NodupWords at hpw
  rw [hsplit] at hpw
  have h1 : ∀ x ∈ l1, x.word ≠ e.word := fun x hx =>
    (List.pairwise_append.1 hpw).2.2 x hx e (by simp)
  have h2 : ∀ x ∈ l2, x.word ≠ e.word := fun x hx => by
    have := (List.pairwise_cons.1 (List.pairwise_append.1 hpw).2.1).1 x hx
    exact fun hc => this hc.symm
  unfold ecount
  rw [hsplit, List.map_append, List.sum_append, List.map_cons, List.sum_cons]
  rw [List.sum_eq_zero fun x hx => ?_, List.sum_eq_zero fun x hx => ?_]
  · simp
  · obtain ⟨u, hu, rfl⟩ := List.mem_map.1 hx
    simp [h2 u hu]
  · obtain ⟨u, hu, rfl⟩ := List.mem_map.1 hx
    simp [h1 u hu]

theorem ecount_pos_mem (m : HMap) (w : List Nat) (h : 0 < ecount m w) :
    ∃ e ∈ m.entries, e.word = w := by
  by_contra hno
  push_neg at hno
  have : ecount m w = 0 := by
    unfold ecount
    exact List.sum_eq_zero fun x hx => by
      obtain ⟨u, hu, rfl⟩ := List.mem_map.1 hx
      simp [hno u hu]
  omega

theorem entry_mem_iff (m : HMap) (hN : NodupWords m) (hpos : PosCounts m) (e : Entry) :
    e ∈ m.entries ↔ ecount m e.word = e.count ∧ 0 < e.count := by
  constructor
  · intro he
    exact ⟨ecount_unique m hN e he, hpos e he⟩
  · rintro ⟨hg, hcpos⟩
    obtain ⟨u, hu, huw⟩ := ecount_pos_mem m e.word (by omega)
    have := ecount_unique m hN u hu
    rw [huw] at this
    have hcu : u.count = e.count := by omega
    have : u = e := by
      cases u
      cases e
      simp_all
    exact this ▸ hu

theorem entries_nodup (m : HMap) (hN : NodupWords m) : m.entries.Nodup := by
  refine hN.imp fun hne => ?_
  intro hk
  exact hne (congrArg Entry.word hk)

theorem sorted_omp_eq_of_ecount (m1 m2 : HMap) (h1 : NodupWords m1)
    (h2 : NodupWords m2) (p1 : PosCounts m1) (p2 : PosCounts m2)
    (hg : ∀ w, ecount m1 w = ecount m2 w) :
    sorted_entries_omp m1 = sorted_entries_omp m2 := by
  have hmem : ∀ e : Entry, e ∈ m1.entries ↔ e ∈ m2.entries := by
    intro e
    rw [entry_mem_iff m1 h1 p1 e, entry_mem_iff m2 h2 p2 e, hg e.word]
  have hperm0 : m1.entries.Perm m2.entries :=
    (List.perm_ext_iff_of_nodup (entries_nodup m1 h1) (entries_nodup m2 h2)).2 hmem
  have hperm : (sorted_entries_omp m1).Perm (sorted_entries_omp m2) :=
    ((sorted_entries_omp_perm m1).trans hperm0).trans (sorted_entries_omp_perm m2).symm
  exact List.eq_of_perm_of_sorted hperm (sorted_entries_omp_sorted m1)
    (sorted_entries_omp_sorted m2)

/-! Claim C7: the ranker. -/

/-- C7 (amended): both rankers return the first `n` entries of a
comparator-sorted permutation of the table's entries, at most `n` of them
(fewer exactly when the table has fewer distinct words, `items` under the
invariant), and the empty list whenever `n ≤ 0`.  The MPI ranker sorts by
count descending with ties by ascending case-folded byte order
(`strncasecmp`), as the claim states; the OpenMP ranker breaks ties by
ascending RAW byte order (`strcmp`) instead — see the counterexample. -/
theorem claim7_topN (m : HMap) (n : Int) :
    List.Sorted compare_words (topN m n)
    ∧ (sorted_entries m).Perm m.entries
    ∧ topN m n = (sorted_entries m).take n.toNat
    ∧ (topN m n).length = min n.toNat m.entries.length
    ∧ (n ≤ 0 → topN m n = [])
    ∧ (Inv m → (topN m n).length = min n.toNat m.items)
    ∧ List.Sorted compare_words_omp (topN_omp m n)
    ∧ (sorted_entries_omp m).Perm m.entries
    ∧ (n ≤ 0 → topN_omp m n = []) := by
  have hlen : (topN m n).length = min n.toNat m.entries.length := by
    unfold topN
    rw [List.length_take, (sorted_entries_perm m).length_eq]
  refine ⟨?_, sorted_entries_perm m, rfl, hlen, ?_, ?_, ?_, sorted_entries_omp_perm m, ?_⟩
  · exact List.Pairwise.sublist (List.take_sublist _ _) (sorted_entries_sorted m)
  · intro hn
    unfold topN
    rw [Int.toNat_of_nonpos hn, List.take_zero]
  · intro hInv
    rw [hlen, hInv.2]
  · exact List.Pairwise.sublist (List.take_sublist _ _) (sorted_entries_omp_sorted m)
  · intro hn
    unfold topN_omp
    rw [Int.toNat_of_nonpos hn, List.take_zero]

theorem claim7_witness :
    topN (insertList HMap.empty [[98], [97]]) (-1) = []
    ∧ topN_omp (insertList HMap.empty [[98], [97]]) (-1) = []
    ∧ (topN (insertList HMap.empty [[98], [97]]) 1).length
        = min ((1 : Int)).toNat (insertList HMap.empty [[98], [97]]).items :=
  ⟨(claim7_topN (insertList HMap.empty [[98], [97]]) (-1)).2.2.2.2.1 (by decide),
    (claim7_topN (insertList HMap.empty [[98], [97]]) (-1)).2.2.2.2.2.2.2.2 (by decide),
    (claim7_topN (insertList HMap.empty [[98], [97]]) 1).2.2.2.2.2.1 (by decide)⟩

/-- C7 counterexample: the claim promises ties broken by ascending
case-folded order for every ranker, but the OpenMP ranker uses `strcmp`: with
the table {"B": 1, "a": 1} it ranks "B" (byte 66) before "a" (byte 97), while
the case-folded order puts "a" before "b". -/
theorem claim7_counterexample :
    topN_omp (insertList HMap.empty [[66], [97]]) 2 = [⟨[66], 1⟩, ⟨[97], 1⟩]
    ∧ ¬ List.Sorted compare_words (topN_omp (insertList HMap.empty [[66], [97]]) 2) := by
  have hval : topN_omp (insertList HMap.empty [[66], [97]]) 2
      = [⟨[66], 1⟩, ⟨[97], 1⟩] := by decide
  refine ⟨hval, ?_⟩
  rw [hval]
  intro h
  have h2 := (List.pairwise_cons.1 h).1 ⟨[97], 1⟩ (by simp)
  revert h2
  decide

/-! Claim C2: the distributed and shared-memory pipelines. -/

theorem foldl_congr_fn {α : Type} (l : List α) (f1 f2 : HMap → α → HMap)
    (hf : ∀ g a, a ∈ l → f1 g a = f2 g a) : ∀ i, l.foldl f1 i = l.foldl f2 i := by
  induction l with
  | nil => intro i; rfl
  | cons a l ih =>
    intro i
    simp only [List.foldl_cons, hf i a (by simp)]
    exact ih (fun g b hb => hf g b (by simp [hb])) _

theorem sum_map_add {α : Type} (l : List α) (f g : α → Nat) :
    (l.map fun x => f x + g x).sum = (l.map f).sum + (l.map g).sum := by
  induction l with
  | nil => simp
  | cons a l ih => simp [ih]; omega

theorem sum_range_ite (gf : Nat) : ∀ P i : Nat, i < P →
    ((List.range P).map fun r => if i = r then gf else 0).sum = gf := by
  intro P
  induction P with
  | zero => intro i hi; omega
  | succ Q ih =>
    intro i hi
    rw [List.range_succ, List.map_append, List.sum_append]
    by_cases hiQ : i = Q
    · subst hiQ
      rw [List.sum_eq_zero fun x hx => ?_]
      · simp
      · obtain ⟨r, hr, rfl⟩ := List.mem_map.1 hx
        have : r < i := List.mem_range.1 hr
        simp
        omega
    · rw [ih i (by omega)]
      simp [hiQ]

theorem sum_enum_filter (P : Nat) (hP : 0 < P) (g : List Nat → Nat) :
    ∀ l : List (Nat × List Nat),
      ((List.range P).map fun r =>
          ((l.filter fun p => p.1 % P = r).map fun p => g p.2).sum).sum
        = (l.map fun p => g p.2).sum := by
  intro l
  induction l with
  | nil => simp
  | cons q l ih =>
    have hstep : ∀ r : Nat,
        (((q :: l).filter fun p => p.1 % P = r).map fun p => g p.2).sum
          = (if q.1 % P = r then g q.2 else 0)
              + ((l.filter fun p => p.1 % P = r).map fun p => g p.2).sum := by
      intro r
      rw [List.filter_cons]
      by_cases h : q.1 % P = r
      · simp [h]
      · simp [h]
    calc ((List.range P).map fun r =>
            (((q :: l).filter fun p => p.1 % P = r).map fun p => g p.2).sum).sum
        = ((List.range P).map fun r =>
            (if q.1 % P = r then g q.2 else 0)
              + ((l.filter fun p => p.1 % P = r).map fun p => g p.2).sum).sum := by
          exact congrArg List.sum (List.map_congr_left fun r _ => hstep r)
      _ = ((List.range P).map fun r => if q.1 % P = r then g q.2 else 0).sum
            + ((List.range P).map fun r =>
                ((l.filter fun p => p.1 % P = r).map fun p => g p.2).sum).sum :=
          sum_map_add _ _ _
      _ = g q.2 + (l.map fun p => g p.2).sum := by
          rw [sum_range_ite (g q.2) P (q.1 % P) (Nat.mod_lt _ hP), ih]
      _ = ((q :: l).map fun p => g p.2).sum := by simp

theorem sum_assigned (files : List (List Nat)) (P : Nat) (hP : 0 < P)
    (g : List Nat → Nat) :
    ((List.range P).map fun r => ((assigned files P r).map g).sum).sum
      = (files.map g).sum := by
  have hmap : ∀ r : Nat, (assigned files P r).map g
      = (files.enum.filter fun p => p.1 % P = r).map fun p => g p.2 := by
    intro r
    unfold assigned
    rw [List.map_map]
    rfl
  calc ((List.range P).map fun r => ((assigned files P r).map g).sum).sum
      = ((List.range P).map fun r =>
          ((files.enum.filter fun p => p.1 % P = r).map fun p => g p.2).sum).sum := by
        exact congrArg List.sum (List.map_congr_left fun r _ => by rw [hmap r])
    _ = (files.enum.map fun p => g p.2).sum := sum_enum_filter P hP g files.enum
    _ = (files.map g).sum := by
        have : files.enum.map (fun p => g p.2) = (files.enum.map Prod.snd).map g := by
          rw [List.map_map]
          rfl
        rw [this, List.enum_map_snd]

theorem assigned_mem (files : List (List Nat)) (P r : Nat) :
    ∀ f ∈ assigned files P r, f ∈ files := by
  intro f hf
  unfold assigned at hf
  obtain ⟨p, hp, rfl⟩ := List.mem_map.1 hf
  have h1 : p ∈ files.enum := (List.mem_filter.1 hp).1
  have h2 : p.2 ∈ files.enum.map Prod.snd := List.mem_map_of_mem _ h1
  rwa [List.enum_map_snd] at h2

theorem WF_localTable (delims : List Nat) (fs : List (List Nat)) :
    WF (localTable delims fs) :=
  foldl_preserve WF _ fs (fun d _f _ => WF_merge d _) HMap.empty WF_empty

theorem Inv_localTable (delims : List Nat) (fs : List (List Nat)) :
    Inv (localTable delims fs) :=
  foldl_preserve Inv _ fs (fun d f _ => Inv_merge d _ (WF_fileTable delims f))
    HMap.empty Inv_empty

theorem PosCounts_localTable (delims : List Nat) (fs : List (List Nat)) :
    PosCounts (localTable delims fs) :=
  foldl_preserve PosCounts _ fs (fun d _f _ => PosCounts_merge d _) HMap.empty
    PosCounts_empty

theorem wire_localTable (delims : List Nat) (fs : List (List Nat))
    (hcolon : ∀ f ∈ fs, ∀ t ∈ ctokens delims f, 58 ∉ t) :
    wireEntries (localTable delims fs) :=
  foldl_preserve wireEntries _ fs
    (fun d f hf => wire_merge d _ (wire_fileTable delims f (hcolon f hf)))
    HMap.empty (fun e he => by simp [HMap.empty] at he)

theorem gcount_localTable (delims : List Nat) (fs : List (List Nat)) (k : List Nat) :
    gcount (localTable delims fs) k
      = (fs.map fun f => gcount (fileTable delims f) k).sum := by
  suffices h : ∀ (fs2 : List (List Nat)) (m : HMap), WF m →
      gcount (fs2.foldl (fun m f => merge_hashmaps m (fileTable delims f)) m) k
        = gcount m k + (fs2.map fun f => gcount (fileTable delims f) k).sum by
    have h2 := h fs HMap.empty WF_empty
    unfold localTable
    rw [h2, gcount_empty, Nat.zero_add]
  intro fs2
  induction fs2 with
  | nil => intro m _; simp
  | cons f fs2 ih =>
    intro m hm
    simp only [List.foldl_cons, List.map_cons, List.sum_cons]
    rw [ih _ (WF_merge m _ hm), gcount_merge_wf m _ k hm (WF_fileTable delims f)]
    omega

theorem mpiRun_merges (delims : List Nat) (files : List (List Nat)) (P : Nat)
    (hcolon : ∀ f ∈ files, ∀ t ∈ ctokens delims f, 58 ∉ t) :
    mpiRun delims files P
      = (List.range (P - 1)).foldl
          (fun g r => merge_hashmaps g (localTable delims (assigned files P (r + 1))))
          (merge_hashmaps HMap.empty (localTable delims (assigned files P 0))) := by
  unfold mpiRun
  refine foldl_congr_fn _ _ _ (fun g r _ => ?_) _
  exact deserialize_serialize g _
    (wire_localTable delims _ fun f hf => hcolon f (assigned_mem files P (r + 1) f hf))
    (PosCounts_localTable delims _)

theorem Inv_mpiRun (delims : List Nat) (files : List (List Nat)) (P : Nat)
    (hcolon : ∀ f ∈ files, ∀ t ∈ ctokens delims f, 58 ∉ t) :
    Inv (mpiRun delims files P) ∧ PosCounts (mpiRun delims files P) := by
  rw [mpiRun_merges delims files P hcolon]
  constructor
  · exact foldl_preserve Inv _ _ (fun d r _ => Inv_merge d _ (WF_localTable delims _)) _
      (Inv_merge _ _ (WF_localTable delims _) Inv_empty)
  · exact foldl_preserve PosCounts _ _ (fun d r _ => PosCounts_merge d _) _
      (PosCounts_merge _ _ PosCounts_empty)

theorem gcount_mpiRun (delims : List Nat) (files : List (List Nat)) (P : Nat)
    (k : List Nat) (hP : 0 < P)
    (hcolon : ∀ f ∈ files, ∀ t ∈ ctokens delims f, 58 ∉ t) :
    gcount (mpiRun delims files P) k
      = (files.map fun f => gcount (fileTable delims f) k).sum := by
  rw [mpiRun_merges delims files P hcolon]
  have haux : ∀ (rs : List Nat) (g : HMap), WF g →
      gcount (rs.foldl
          (fun g r => merge_hashmaps g (localTable delims (assigned files P (r + 1))))
          g) k
        = gcount g k
            + (rs.map fun r =>
                gcount (localTable delims (assigned files P (r + 1))) k).sum := by
    intro rs
    induction rs with
    | nil => intro g _; simp
    | cons r rs ih =>
      intro g hg
      simp only [List.foldl_cons, List.map_cons, List.sum_cons]
      rw [ih _ (WF_merge _ _ hg), gcount_merge_wf _ _ k hg (WF_localTable delims _)]
      omega
  rw [haux (List.range (P - 1)) _ (WF_merge _ _ WF_empty),
    gcount_merge_wf _ _ k WF_empty (WF_localTable delims _), gcount_empty]
  have hrange : ((List.range P).map fun r =>
        gcount (localTable delims (assigned files P r)) k).sum
      = gcount (localTable delims (assigned files P 0)) k
          + ((List.range (P - 1)).map fun r =>
              gcount (localTable delims (assigned files P (r + 1))) k).sum := by
    have hr : List.range P = 0 :: (List.range (P - 1)).map Nat.succ := by
      conv_lhs => rw [show P = P - 1 + 1 by omega]
      exact List.range_succ_eq_map (P - 1)
    rw [hr, List.map_cons, List.sum_cons, List.map_map]
    rfl
  have hpart : ((List.range P).map fun r =>
        gcount (localTable delims (assigned files P r)) k).sum
      = (files.map fun f => gcount (fileTable delims f) k).sum := by
    calc ((List.range P).map fun r =>
            gcount (localTable delims (assigned files P r)) k).sum
        = ((List.range P).map fun r =>
            ((assigned files P r).map fun f => gcount (fileTable delims f) k).sum).sum := by
          exact congrArg List.sum
            (List.map_congr_left fun r _ => gcount_localTable delims _ k)
      _ = (files.map fun f => gcount (fileTable delims f) k).sum :=
          sum_assigned files P hP _
  omega

theorem ecount_empty (w : List Nat) : ecount HMap.empty w = 0 := by
  simp [ecount, HMap.empty]

theorem ecount_foldl_omp (delims w : List Nat) :
    ∀ (fs : List (List Nat)) (g : HMap),
      ecount (fs.foldl (fun l f => merge_hashmaps_omp l (fileTable delims f)) g) w
        = ecount g w + (fs.map fun f => ecount (fileTable delims f) w).sum := by
  intro fs
  induction fs with
  | nil => intro g; simp
  | cons f fs ih =>
    intro g
    simp only [List.foldl_cons, List.map_cons, List.sum_cons]
    rw [ih _, ecount_merge_omp]
    omega

theorem ecount_pfs_sync (delims w : List Nat) (files : List (List Nat)) :
    ecount (process_files_sync delims files) w
      = (files.map fun f => ecount (fileTable delims f) w).sum := by
  unfold process_files_sync
  rw [ecount_foldl_omp delims w files HMap.empty, ecount_empty, Nat.zero_add]

theorem ecount_pfs_parallel (delims w : List Nat) (parts : List (List (List Nat))) :
    ecount (process_files_parallel delims parts) w
      = (parts.map fun part =>
          (part.map fun f => ecount (fileTable delims f) w).sum).sum := by
  unfold process_files_parallel
  suffices h : ∀ (ps : List (List (List Nat))) (g : HMap),
      ecount (ps.foldl
          (fun g part =>
            merge_hashmaps_omp g
              (part.foldl (fun l f => merge_hashmaps_omp l (fileTable delims f))
                HMap.empty))
          g) w
        = ecount g w
            + (ps.map fun part =>
                (part.map fun f => ecount (fileTable delims f) w).sum).sum by
    rw [h parts HMap.empty, ecount_empty, Nat.zero_add]
  intro ps
  induction ps with
  | nil => intro g; simp
  | cons part ps ih =>
    intro g
    simp only [List.foldl_cons, List.map_cons, List.sum_cons]
    rw [ih _, ecount_merge_omp,
      ecount_foldl_omp delims w part HMap.empty, ecount_empty, Nat.zero_add]
    omega

theorem NodupWords_fileTable (delims content : List Nat) :
    NodupWords (fileTable delims content) :=
  Inv_NodupWords _ (Inv_fileTable delims content)

theorem NodupWords_pfs_sync (delims : List Nat) (files : List (List Nat)) :
    NodupWords (process_files_sync delims files) :=
  foldl_preserve NodupWords _ files (fun d _f _ => NodupWords_merge_omp d _)
    HMap.empty NodupWords_empty

theorem PosCounts_foldl_omp (delims : List Nat) (fs : List (List Nat)) (g : HMap)
    (hg : PosCounts g) :
    PosCounts (fs.foldl (fun l f => merge_hashmaps_omp l (fileTable delims f)) g) :=
  foldl_preserve PosCounts _ fs
    (fun d f _ => PosCounts_merge_omp d _ (PosCounts_fileTable delims f)) g hg

theorem PosCounts_pfs_sync (delims : List Nat) (files : List (List Nat)) :
    PosCounts (process_files_sync delims files) :=
  PosCounts_foldl_omp delims files HMap.empty PosCounts_empty

theorem NodupWords_pfs_parallel (delims : List Nat) (parts : List (List (List Nat))) :
    NodupWords (process_files_parallel delims parts) :=
  foldl_preserve NodupWords _ parts (fun d _part _ => NodupWords_merge_omp d _)
    HMap.empty NodupWords_empty

theorem PosCounts_pfs_parallel (delims : List Nat) (parts : List (List (List Nat))) :
    PosCounts (process_files_parallel delims parts) :=
  foldl_preserve PosCounts _ parts
    (fun d part _ =>
      PosCounts_merge_omp d _ (PosCounts_foldl_omp delims part HMap.empty PosCounts_empty))
    HMap.empty PosCounts_empty

/-- C2 (amended): for fixed input files and delimiter set, provided no token
contains a `':'` byte (true of the shipped delimiter sets, which include the
colon), the distributed pipeline produces, for every process count, a final
table whose ranked (count, case-folded word) sequence is identical to the
single-process run — only the case of the reported spellings may vary with
the process count (see the counterexample) — and the shared-memory variant
produces the very same ranked entry list (spellings included) for every
dynamic schedule and merge order as the sequential driver. -/
theorem claim2_partition_invariance (delims : List Nat) (files : List (List Nat))
    (P : Nat) (hP : 0 < P)
    (hcolon : ∀ f ∈ files, ∀ t ∈ ctokens delims f, 58 ∉ t) :
    rankedKeys (mpiRun delims files P) = rankedKeys (mpiRun delims files 1)
    ∧ ∀ parts : List (List (List Nat)), parts.flatten.Perm files →
        sorted_entries_omp (process_files_parallel delims parts)
          = sorted_entries_omp (process_files_sync delims files) := by
  constructor
  · obtain ⟨hI, hPo⟩ := Inv_mpiRun delims files P hcolon
    obtain ⟨hI1, hPo1⟩ := Inv_mpiRun delims files 1 hcolon
    refine rankedKeys_eq_of_gcount _ _ hI hI1 hPo hPo1 fun k => ?_
    rw [gcount_mpiRun delims files P k hP hcolon,
      gcount_mpiRun delims files 1 k (by omega) hcolon]
  · intro parts hperm
    refine sorted_omp_eq_of_ecount _ _ (NodupWords_pfs_parallel delims parts)
      (NodupWords_pfs_sync delims files) (PosCounts_pfs_parallel delims parts)
      (PosCounts_pfs_sync delims files) fun w => ?_
    rw [ecount_pfs_parallel delims w parts, ecount_pfs_sync delims w files]
    calc (parts.map fun part =>
            (part.map fun f => ecount (fileTable delims f) w).sum).sum
        = ((parts.map (List.map fun f => ecount (fileTable delims f) w)).map
            List.sum).sum := by
          rw [List.map_map]
          rfl
      _ = ((parts.map (List.map fun f => ecount (fileTable delims f) w)).flatten).sum :=
          (List.sum_flatten).symm
      _ = (parts.flatten.map fun f => ecount (fileTable delims f) w).sum := by
          rw [← List.map_flatten]
      _ = (files.map fun f => ecount (fileTable delims f) w).sum :=
          (hperm.map _).sum_eq

theorem claim2_witness :
    (0 < 2 ∧ ∀ f ∈ [[97], [98]], ∀ t ∈ ctokens [32] f, (58 : Nat) ∉ t)
    ∧ rankedKeys (mpiRun [32] [[97], [98]] 2) = rankedKeys (mpiRun [32] [[97], [98]] 1)
    ∧ sorted_entries_omp (process_files_parallel [32] [[[98]], [[97]]])
        = sorted_entries_omp (process_files_sync [32] [[97], [98]]) :=
  ⟨⟨by decide, by decide⟩,
    (claim2_partition_invariance [32] [[97], [98]] 2 (by decide) (by decide)).1,
    (claim2_partition_invariance [32] [[97], [98]] 2 (by decide) (by decide)).2
      [[[98]], [[97]]] (by decide)⟩

/-- C2 counterexample: the claim as stated — the final RankedList identical
regardless of worker/process count — fails for the distributed pipeline: on
the three files "x", "ALPHA", "alpha" (space delimiter), one process reports
the spelling "ALPHA" with count 2, two processes report "alpha" with
count 2, because the spelling kept is the first one in merge order. -/
theorem claim2_counterexample :
    topN (mpiRun [32] [[120], [65, 76, 80, 72, 65], [97, 108, 112, 104, 97]] 2) 10
      = [⟨[97, 108, 112, 104, 97], 2⟩, ⟨[120], 1⟩]
    ∧ topN (mpiRun [32] [[120], [65, 76, 80, 72, 65], [97, 108, 112, 104, 97]] 1) 10
      = [⟨[65, 76, 80, 72, 65], 2⟩, ⟨[120], 1⟩]
    ∧ topN (mpiRun [32] [[120], [65, 76, 80, 72, 65], [97, 108, 112, 104, 97]] 2) 10
      ≠ topN (mpiRun [32] [[120], [65, 76, 80, 72, 65], [97, 108, 112, 104, 97]] 1) 10 :=
  ⟨by decide, by decide, by decide⟩

end Wordfreq
